import Mathlib

/-!
Verification development for the heyi CLI tool (prompt templating, context
assembly, preset merging and URL-retrieval strategy selection).

Strings are modelled as lists of characters (`Str`).  The placeholder
regular expressions of the variable scanner/substituter are embedded as
explicit deterministic matchers that follow the JS regex semantics
(leftmost match, greedy quantifiers with backtracking on the identifier,
global scan resuming after each match).

Modelling notes:
- Variable names are interpolated into a regex source string by the code;
  the embedded matcher treats the key as a literal, which is faithful for
  identifier-syntax keys (the documented invariant); theorems about
  replacement therefore carry identifier hypotheses on keys.
- JS String.replace interprets dollar sequences in the replacement string;
  replacement values are spliced literally here, and theorems whose truth
  would be affected by dollar sequences carry no-dollar hypotheses.
- External collaborators (HTTP fetch, puppeteer navigation, sanitize-html,
  the filesystem and JSON.parse) are supplied as an explicit environment.
-/

namespace Heyi

abbrev Str := List Char

/-- JS regex whitespace class (code points of backslash-s), as used in
the placeholder patterns: space, tab, line feed, carriage return,
vertical tab, form feed, and the Unicode space separators. -/
def isJsSpace (c : Char) : Bool :=
  c.toNat = 0x20 || c.toNat = 0x9 || c.toNat = 0xa || c.toNat = 0xd ||
  c.toNat = 0xb || c.toNat = 0xc || c.toNat = 0xa0 || c.toNat = 0x1680 ||
  (0x2000 ≤ c.toNat && c.toNat ≤ 0x200a) || c.toNat = 0x2028 ||
  c.toNat = 0x2029 || c.toNat = 0x202f || c.toNat = 0x205f ||
  c.toNat = 0x3000 || c.toNat = 0xfeff

/-- First character of an identifier: [a-zA-Z_]. -/
def isIdentStart (c : Char) : Bool :=
  (0x61 ≤ c.toNat && c.toNat ≤ 0x7a) || (0x41 ≤ c.toNat && c.toNat ≤ 0x5a) ||
  c.toNat = 0x5f

/-- Subsequent identifier characters: [a-zA-Z0-9_]. -/
def isIdentChar (c : Char) : Bool :=
  isIdentStart c || (0x30 ≤ c.toNat && c.toNat ≤ 0x39)

/-- A whole string matches identifier syntax. -/
def isIdentStr (s : Str) : Bool :=
  match s with
  | [] => false
  | c :: cs => isIdentStart c && cs.all isIdentChar

/-- Parse the optional attribute of a placeholder:
name, optional spaces, =, optional spaces, then a double-quoted run of
non-quote characters.  Returns the quoted text and the remaining input.
Embeds the regex fragment (?:name\s*=\s*"([^\x22]*)")?. -/
def parseAttr : Str → Option (Str × Str)
  | 'n' :: 'a' :: 'm' :: 'e' :: s0 =>
    match s0.dropWhile isJsSpace with
    | '=' :: s2 =>
      match s2.dropWhile isJsSpace with
      | '"' :: s4 =>
        match s4.dropWhile (fun c => !(c = '"')) with
        | '"' :: s5 => some (s4.takeWhile (fun c => !(c = '"')), s5)
        | _ => none
      | _ => none
    | _ => none
  | _ => none

/-- Parse what follows the identifier inside a placeholder: optional
spaces, an optional name="..." attribute, optional spaces, and the
closing braces.  Returns the optional attribute text and the input
remaining after the match.  The JS engine's fallback from a successful
attribute parse to the attribute-skipped branch can never succeed (the
input would have to start with both the word name and a closing brace),
so this function is deterministic. -/
def parseTail (s : Str) : Option (Option Str × Str) :=
  match parseAttr (s.dropWhile isJsSpace) with
  | some (d, s2) =>
    match s2.dropWhile isJsSpace with
    | '}' :: '}' :: s3 => some (some d, s3)
    | _ => none
  | none =>
    match s.dropWhile isJsSpace with
    | '}' :: '}' :: s3 => some (none, s3)
    | _ => none

/-- Length of the longest identifier readable at the front of the input;
0 when the input does not start with an identifier character. -/
def identMaxLen : Str → Nat
  | [] => 0
  | c :: cs => if isIdentStart c then (cs.takeWhile isIdentChar).length + 1 else 0

/-- Backtracking over the greedy identifier: try the identifier lengths
from n downwards (longest first, as the JS engine does), completing each
attempt with parseTail.  Returns the identifier, the optional attribute
text, and the remaining input of the first attempt that succeeds. -/
def tryIdentLens (s2 : Str) : Nat → Option (Str × Option Str × Str)
  | 0 => none
  | n + 1 =>
    match parseTail (s2.drop (n + 1)) with
    | some (d, rest) => some (s2.take (n + 1), d, rest)
    | none => tryIdentLens s2 n

/-- Try to match the extraction pattern
curly curly, spaces, identifier, optional attribute, spaces, closing
braces at the very start of the input.  Embeds one match attempt of the
regex used by extractVariables. -/
def matchVarAt : Str → Option (Str × Option Str × Str)
  | '{' :: '{' :: s1 =>
    tryIdentLens (s1.dropWhile isJsSpace) (identMaxLen (s1.dropWhile isJsSpace))
  | _ => none

/-- Try to match the replacement pattern for a fixed key at the very
start of the input: curly curly, spaces, the key as a literal, then the
same tail as the extraction pattern (the attribute text is discarded).
Embeds one match attempt of the regex built by replaceVariables. -/
def matchKeyAt (k : Str) : Str → Option Str
  | '{' :: '{' :: s1 =>
    if k.isPrefixOf (s1.dropWhile isJsSpace) then
      match parseTail ((s1.dropWhile isJsSpace).drop k.length) with
      | some (_, rest) => some rest
      | none => none
    else none
  | _ => none

/-- The coercion the scan loop applies to the attribute capture, written
match[2] || null in the source: an absent capture stays absent and an
empty captured string is coerced to null as well, because the empty
string is falsy. -/
def jsDesc : Option Str → Option Str
  | none => none
  | some [] => none
  | some (c :: cs) => some (c :: cs)

/-- Global scan of the extraction pattern over the template: all matches
in order, duplicates included, each recorded with its coerced attribute
capture (jsDesc).  On a match the scan resumes after the matched span,
otherwise it advances one character.  Structured with a fuel argument so
that the recursion is structural; every step consumes at least one
character, so fuel equal to the input length suffices and is supplied by
extractScan below (fuel irrelevance is proved in extractScanF_fuel). -/
def extractScanF : Nat → Str → List (Str × Option Str)
  | _, [] => []
  | 0, _ :: _ => []
  | fuel + 1, c :: cs =>
    match matchVarAt (c :: cs) with
    | some (n, d, rest) => (n, jsDesc d) :: extractScanF fuel rest
    | none => extractScanF fuel cs

/-- The global scan with enough fuel for its input. -/
def extractScan (s : Str) : List (Str × Option Str) :=
  extractScanF s.length s

/-- Keep only the first occurrence of each name, in order, as the seen
set does in extractVariables. -/
def dedupFirst : List (Str × Option Str) → List Str → List (Str × Option Str)
  | [], _ => []
  | (n, d) :: xs, seen =>
    if n ∈ seen then dedupFirst xs seen else (n, d) :: dedupFirst xs (n :: seen)

/-- extractVariables from src/unnamed/part_003: scan the whole template
left to right; record each distinct name once with the attribute text of
its first occurrence. -/
def extractVariables (t : Str) : List (Str × Option Str) :=
  dedupFirst (extractScan t) []

/-- Modelled from the spec: records each distinct name exactly once,
using the description attached to its first occurrence, in order of
first appearance.  Reference function the scanner is compared with. -/
def firstAppearanceSpec : List (Str × Option Str) → List (Str × Option Str)
  | [] => []
  | (n, d) :: xs => (n, d) :: firstAppearanceSpec (xs.filter (fun x => !(x.1 == n)))
termination_by xs => xs.length
decreasing_by
  simp only [List.length_cons]
  exact Nat.lt_succ_of_le (List.length_filter_le _ _)

/-- The enumerable and non-enumerable properties a plain JS object
inherits from Object.prototype; the in operator consults them. -/
def objectPrototypeProps : List Str :=
  ["constructor", "hasOwnProperty", "isPrototypeOf", "propertyIsEnumerable",
   "toLocaleString", "toString", "valueOf", "__defineGetter__",
   "__defineSetter__", "__lookupGetter__", "__lookupSetter__",
   "__proto__"].map String.data

/-- The JS in operator on a plain object: own keys or properties
inherited from Object.prototype. -/
def jsIn (nm : Str) (vars : List (Str × Str)) : Bool :=
  vars.any (fun kv => kv.1 == nm) || objectPrototypeProps.contains nm

/-- findUndefinedVariables from src/unnamed/part_003: the extracted
variables whose name is not in the variables object (per the JS in
operator, hence including inherited prototype properties). -/
def findUndefinedVariables (t : Str) (vars : List (Str × Str)) : List (Str × Option Str) :=
  (extractVariables t).filter (fun v => !(jsIn v.1 vars))

/-- The interactive prompt label built by promptForVariable: the ternary
tests the description's truthiness, so a null or empty description gives
the bare label. -/
def promptLabel (nm : Str) (d : Option Str) : Str :=
  match d with
  | some (c :: ds) => (c :: ds) ++ " (".data ++ nm ++ "): ".data
  | some [] => nm ++ ": ".data
  | none => nm ++ ": ".data

/-- One global replacement pass over the input for a single key: the
embedding of result.replace(pattern, value) with the pattern built for
that key.  The replacement value is spliced literally (see the module
comment about dollar sequences).  Fuel as in extractScanF. -/
def replaceKeyF (k val : Str) : Nat → Str → Str
  | _, [] => []
  | 0, c :: cs => c :: cs
  | fuel + 1, c :: cs =>
    match matchKeyAt k (c :: cs) with
    | some rest => val ++ replaceKeyF k val fuel rest
    | none => c :: replaceKeyF k val fuel cs

/-- The global replacement pass with enough fuel for its input. -/
def replaceKey (k val s : Str) : Str :=
  replaceKeyF k val s.length s

/-- replaceVariables from src/unnamed/part_003: one replacement pass per
map entry, in map order, each pass operating on the result of the
previous one. -/
def replaceVariables (t : Str) (vars : List (Str × Str)) : Str :=
  vars.foldl (fun r kv => replaceKey kv.1 kv.2 r) t

/-- Whether the replacement pattern for a key matches anywhere in the
input. -/
def hasMatchB (k : Str) : Str → Bool
  | [] => false
  | c :: cs => (matchKeyAt k (c :: cs)).isSome || hasMatchB k cs

/-- The literal text of a bare placeholder for a name. -/
def bareL (nm : Str) : Str :=
  '{' :: '{' :: nm ++ ['}', '}']

/-- No double-quote character: templates and values satisfying this never
exercise the quoted name-attribute of the placeholder grammar. -/
abbrev noQuote (s : Str) : Prop := '"' ∉ s

/-- No dollar character: such replacement values are immune to the
special replacement-pattern sequences of JS String.replace, so splicing
them literally is exact. -/
abbrev noDollar (s : Str) : Prop := '$' ∉ s

/-- The interactive fill step of the prompt/preset actions: ask for every
variable reported by findUndefinedVariables, in order, and add each
answer to the variables object. -/
def collectMissingVars (t : Str) (vars : List (Str × Str))
    (answers : Str × Option Str → Str) : List (Str × Str) :=
  vars ++ (findUndefinedVariables t vars).map (fun v => (v.1, answers v))

/-! ## Context assembler (src/utils/prompt.js) -/

/-- One context entry as rendered by buildPrompt. -/
def renderSource (p : Str × Str) : Str :=
  "Source: ".data ++ p.1 ++ '\n' :: p.2

/-- The separator between context entries. -/
def ctxSep : Str := "\n\n---\n\n".data

/-- The combination step of buildPrompt, applied once every file and URL
has been retrieved: files first, then urls, a singular or plural label,
entries joined by the separator. -/
def buildPromptCombine (prompt : Str)
    (fileContents urlContents : List (Str × Str)) : Str :=
  let allContexts := fileContents ++ urlContents
  if allContexts.length > 0 then
    let contextItems := List.intercalate ctxSep (allContexts.map renderSource)
    let contextLabel :=
      if allContexts.length == 1 then "Context from source:".data
      else "Context from sources:".data
    prompt ++ "\n\n".data ++ contextLabel ++ '\n' :: contextItems
  else prompt

/-! ## Content retriever (src/utils/input.js)

External collaborators are an explicit environment: the HTTP fetch, the
puppeteer navigation outcome, the sanitize-html text extraction and the
filesystem are functions supplied from outside. -/

/-- Outcome of a puppeteer page.goto navigation: the rendered document,
a wait-for-network-idle timeout, or any other navigation failure. -/
inductive ChromeNav where
  | success (html : Str)
  | timeout
  | failure
deriving DecidableEq

/-- The external world of one run. -/
structure FetchEnv where
  httpGet : Str → Option (Nat × Str)
  chromeNav : Str → ChromeNav
  sanitize : Str → Str
  readFileF : Str → Option Str

/-- Errors of the retrieval pipeline, structured so the offending source
stays attached. -/
inductive RunErr where
  | invalidProtocol (p : Str)
  | invalidUrlFormat (u : Str)
  | httpStatus (status : Nat)
  | networkFailure
  | navTimeout
  | navFailure
  | fetchFailed (url : Str) (cause : RunErr)
  | fileReadFailed (path : Str)
deriving DecidableEq

def isAsciiLetter (c : Char) : Bool :=
  ('a' ≤ c && c ≤ 'z') || ('A' ≤ c && c ≤ 'Z')

def isSchemeChar (c : Char) : Bool :=
  isAsciiLetter c || ('0' ≤ c && c ≤ '9') || c = '+' || c = '-' || c = '.'

/-- The protocol of a URL in the sense of the WHATWG URL parser, to the
extent the tool depends on it: a leading scheme (letter followed by
scheme characters) terminated by a colon, lowercased, colon included. -/
def urlProtocol : Str → Option Str
  | [] => none
  | c :: cs =>
    if isAsciiLetter c then
      match cs.dropWhile isSchemeChar with
      | ':' :: _ => some ((c :: cs.takeWhile isSchemeChar).map Char.toLower ++ [':'])
      | _ => none
    else none

/-- validateUrl: URL must parse and its protocol must be http or https. -/
def validateUrl (u : Str) : Except RunErr Unit :=
  match urlProtocol u with
  | some p =>
    if p == "http:".data || p == "https:".data then .ok ()
    else .error (.invalidProtocol p)
  | none => .error (.invalidUrlFormat u)

/-- JS String.prototype.trim. -/
def jsTrim (s : Str) : Str :=
  ((s.dropWhile isJsSpace).reverse.dropWhile isJsSpace).reverse

/-- fetchUrlContentWithFetch: validate, perform the HTTP request, require
a success status, sanitize to plain text and trim. -/
def fetchUrlContentWithFetch (env : FetchEnv) (url : Str) : Except RunErr Str :=
  match validateUrl url with
  | .error e => .error e
  | .ok () =>
    match env.httpGet url with
    | none => .error .networkFailure
    | some (status, body) =>
      if 200 ≤ status && status < 300 then .ok (jsTrim (env.sanitize body))
      else .error (.httpStatus status)

/-- The crawler token selecting the full-render strategy explicitly. -/
def chromeToken : Str := "chrome".data

/-- isBrowserPath: a non-empty crawler value that starts with a
filesystem path shape. -/
def isBrowserPath (crawler : Str) : Bool :=
  match crawler with
  | [] => false
  | _ =>
    ("/".data).isPrefixOf crawler || ("./".data).isPrefixOf crawler ||
    ("../".data).isPrefixOf crawler

/-- The executablePath entry of the puppeteer launch options: the
crawler token itself exactly when it is path shaped. -/
def chromeExecutablePath (crawler : Str) : Option Str :=
  if isBrowserPath crawler then some crawler else none

/-- The timeout passed to page.goto in fetchUrlContentWithChrome. -/
def chromeGotoTimeoutMs : Nat := 30000

/-- The waitUntil condition passed to page.goto. -/
def chromeGotoWaitUntil : Str := "networkidle0".data

/-- fetchUrlContentWithChrome: validate, navigate, and sanitize the
rendered document.  A goto rejection, the wait-for-network-idle timeout
included, propagates as an error; there is no catch around the
navigation.  The browser teardown has no observable effect on the
result and is not modelled. -/
def fetchUrlContentWithChrome (env : FetchEnv) (url : Str) : Except RunErr Str :=
  match validateUrl url with
  | .error e => .error e
  | .ok () =>
    match env.chromeNav url with
    | .success html => .ok (jsTrim (env.sanitize html))
    | .timeout => .error .navTimeout
    | .failure => .error .navFailure

/-- The strategy dispatch condition of fetchUrlContent. -/
def usesChromeCrawler (crawler : Str) : Bool :=
  crawler == chromeToken || isBrowserPath crawler

/-- fetchUrlContent: dispatch on the crawler token and wrap any error
with the offending URL. -/
def fetchUrlContent (env : FetchEnv) (crawler url : Str) : Except RunErr Str :=
  (if usesChromeCrawler crawler then fetchUrlContentWithChrome env url
   else fetchUrlContentWithFetch env url).mapError (RunErr.fetchFailed url)

/-- readFileContent: read a file, wrapping failures with the path. -/
def readFileContent (env : FetchEnv) (path : Str) : Except RunErr Str :=
  match env.readFileF path with
  | some c => .ok c
  | none => .error (.fileReadFailed path)

/-- Retrieve a list of sources strictly in order, stopping at the first
failure. -/
def retrieveEach (f : Str → Except RunErr Str) : List Str → Except RunErr (List (Str × Str))
  | [] => .ok []
  | p :: ps =>
    match f p with
    | .error e => .error e
    | .ok c =>
      match retrieveEach f ps with
      | .error e => .error e
      | .ok rest => .ok ((p, c) :: rest)

/-- buildPrompt: retrieve every file, then every URL with the selected
crawler, and combine. -/
def buildPromptM (env : FetchEnv) (prompt : Str) (files urls : List Str)
    (crawler : Str) : Except RunErr Str :=
  match retrieveEach (readFileContent env) files with
  | .error e => .error e
  | .ok fileContents =>
    match retrieveEach (fetchUrlContent env crawler) urls with
    | .error e => .error e
    | .ok urlContents => .ok (buildPromptCombine prompt fileContents urlContents)

/-! ## Option resolution and preset merging (bin/index.js) -/

/-- One CLI invocation: for each scalar flag, some value exactly when the
flag was passed (hasFlag tracks presence in the raw argument vector, and
commander records the value); list flags accumulate; var flags build the
variables object. -/
structure Invocation where
  model : Option Str
  format : Option Str
  schema : Option Str
  crawler : Option Str
  files : List Str
  urls : List Str
  vars : List (Str × Str)

/-- The commander defaults, environment overrides applied:
HEYI_MODEL ?? DEFAULT_MODEL and HEYI_CRAWLER ?? DEFAULT_CRAWLER. -/
structure EnvDefaults where
  model : Str
  crawler : Str

/-- The built-in model default. -/
def defaultModel : Str := "openai/gpt-4o-mini".data

/-- The built-in crawler default. -/
def defaultCrawler : Str := "fetch".data

structure ResolvedOptions where
  model : Str
  format : Str
  schema : Option Str
  crawler : Str
  files : List Str
  urls : List Str
  vars : List (Str × Str)
deriving DecidableEq

inductive OptErr where
  | invalidFormat
  | invalidCrawler
  | schemaRequired
deriving DecidableEq

/-- The zod format enum of optionsSchema. -/
def formatEnumOk (s : Str) : Bool :=
  s == "string".data || s == "number".data || s == "object".data || s == "array".data

/-- The zod crawler enum of optionsSchema: only the two strategy tokens,
never a filesystem path. -/
def crawlerEnumOk (s : Str) : Bool :=
  s == "fetch".data || s == "chrome".data

/-- optionsSchema.parse: enum checks on format and crawler and the
schema-required refinement for object and array formats. -/
def optionsSchemaParse (o : ResolvedOptions) : Except OptErr ResolvedOptions :=
  if !formatEnumOk o.format then .error .invalidFormat
  else if !crawlerEnumOk o.crawler then .error .invalidCrawler
  else if (o.format == "object".data || o.format == "array".data) && o.schema.isNone then
    .error .schemaRequired
  else .ok o

/-- flagsToOptions: commander substitutes the defaults for absent scalar
flags, then optionsSchema validates. -/
def flagsToOptions (d : EnvDefaults) (inv : Invocation) : Except OptErr ResolvedOptions :=
  optionsSchemaParse
    { model := inv.model.getD d.model
      format := inv.format.getD ("string".data)
      schema := inv.schema
      crawler := inv.crawler.getD d.crawler
      files := inv.files
      urls := inv.urls
      vars := inv.vars }

/-- A loaded preset configuration (the output of presetSchema). -/
structure PresetConfig where
  prompt : Str
  model : Option Str
  format : Option Str
  schema : Option Str
  crawler : Option Str
  files : List Str
  urls : List Str
deriving DecidableEq

/-- mergeOptionsWithPreset: scalar fields keep the flag value when the
flag was present in the raw invocation, otherwise take the preset value
when present, otherwise keep the already-resolved option (the default);
files and urls concatenate preset first; vars pass through; the merged
record is validated again. -/
def mergeOptionsWithPreset (inv : Invocation) (opts : ResolvedOptions)
    (preset : PresetConfig) : Except OptErr ResolvedOptions :=
  optionsSchemaParse
    { model := if inv.model.isSome then opts.model else preset.model.getD opts.model
      format := if inv.format.isSome then opts.format else preset.format.getD opts.format
      schema := if inv.schema.isSome then opts.schema else preset.schema <|> opts.schema
      crawler := if inv.crawler.isSome then opts.crawler else preset.crawler.getD opts.crawler
      files := preset.files ++ opts.files
      urls := preset.urls ++ opts.urls
      vars := opts.vars }

/-! ## Preset loading (src/utils/preset.js) -/

/-- The value produced by JSON.parse (duplicate object keys already
collapsed by the JSON parser). -/
inductive Json where
  | str (s : Str)
  | num (n : Int)
  | bool (b : Bool)
  | null
  | arr (elems : List Json)
  | obj (fields : List (Str × Json))

/-- Object field lookup. -/
def jlookup (fields : List (Str × Json)) (k : Str) : Option Json :=
  (fields.find? (fun f => f.1 == k)).map (fun f => f.2)

/-- zod: optional string field. -/
def parseOptStr (fields : List (Str × Json)) (k : Str) : Except Unit (Option Str) :=
  match jlookup fields k with
  | none => .ok none
  | some (.str s) => .ok (some s)
  | some _ => .error ()

/-- zod: optional enum field. -/
def parseOptEnum (inEnum : Str → Bool) (fields : List (Str × Json)) (k : Str) :
    Except Unit (Option Str) :=
  match jlookup fields k with
  | none => .ok none
  | some (.str s) => if inEnum s then .ok (some s) else .error ()
  | some _ => .error ()

/-- zod: array of strings. -/
def parseStrList : List Json → Except Unit (List Str)
  | [] => .ok []
  | .str s :: rest => (parseStrList rest).map (fun l => s :: l)
  | _ => .error ()

/-- zod: string-array field defaulting to the empty list when absent. -/
def parseStrListField (fields : List (Str × Json)) (k : Str) : Except Unit (List Str) :=
  match jlookup fields k with
  | none => .ok []
  | some (.arr es) => parseStrList es
  | some _ => .error ()

/-- presetSchema.parse: an object with a required string prompt, optional
model, format (enum), schema and crawler (enum), and files and urls
defaulting to empty lists.  Unknown fields are ignored (zod objects are
non-strict).  The error detail is not modelled. -/
def presetSchemaParse (j : Json) : Except Unit PresetConfig :=
  match j with
  | .obj fields =>
    (match jlookup fields ("prompt".data) with
     | some (.str s) => Except.ok s
     | _ => Except.error ()).bind fun prompt =>
    (parseOptStr fields ("model".data)).bind fun model =>
    (parseOptEnum formatEnumOk fields ("format".data)).bind fun format =>
    (parseOptStr fields ("schema".data)).bind fun schema =>
    (parseOptEnum crawlerEnumOk fields ("crawler".data)).bind fun crawler =>
    (parseStrListField fields ("files".data)).bind fun files =>
    (parseStrListField fields ("urls".data)).map fun urls =>
    { prompt := prompt, model := model, format := format, schema := schema,
      crawler := crawler, files := files, urls := urls }
  | _ => .error ()

/-- The field names presetSchema recognizes; every other field of the
JSON document is ignored. -/
def recognizedPresetKey (k : Str) : Bool :=
  k == "prompt".data || k == "model".data || k == "format".data || k == "schema".data ||
  k == "crawler".data || k == "files".data || k == "urls".data

/-- Outcome of reading and JSON-parsing the preset file: the file is
missing, reading fails for another reason, or it yields a JSON.parse
result. -/
inductive ReadOutcome where
  | enoent
  | ioError
  | content (parsed : Except Unit Json)

inductive PresetErr where
  | notFound (path : Str)
  | malformed (path : Str)
deriving DecidableEq

/-- loadPreset: a missing file is the not-found condition; every other
failure (read error, JSON syntax error, schema violation) is the
malformed-preset condition. -/
def loadPreset (path : Str) (read : ReadOutcome) : Except PresetErr PresetConfig :=
  match read with
  | .enoent => .error (.notFound path)
  | .ioError => .error (.malformed path)
  | .content (.error _) => .error (.malformed path)
  | .content (.ok j) =>
    match presetSchemaParse j with
    | .ok cfg => .ok cfg
    | .error _ => .error (.malformed path)

/-! ## Basic lemmas about the matchers and scanners -/

theorem dropWhile_cons_suffix {p : Char → Bool} {c : Char} {r l : Str}
    (h : l.dropWhile p = c :: r) : r <:+ l :=
  List.IsSuffix.trans (List.suffix_cons c r) (h ▸ List.dropWhile_suffix p)

theorem parseAttr_suffix {s d r : Str} (h : parseAttr s = some (d, r)) : r <:+ s := by
  unfold parseAttr at h
  split at h
  case h_2 => exact absurd h (by simp)
  rename_i s0
  split at h
  case h_2 => exact absurd h (by simp)
  rename_i s2 h0
  split at h
  case h_2 => exact absurd h (by simp)
  rename_i s4 h2
  split at h
  case h_2 => exact absurd h (by simp)
  rename_i s5 h4
  simp only [Option.some.injEq, Prod.mk.injEq] at h
  obtain ⟨-, rfl⟩ := h
  have h5 : s5 <:+ s4 := dropWhile_cons_suffix h4
  have h3 : s4 <:+ s2 := dropWhile_cons_suffix h2
  have h1 : s2 <:+ s0 := dropWhile_cons_suffix h0
  have hs0 : (s5 : Str) <:+ s0 := (h5.trans h3).trans h1
  exact hs0.trans ((List.suffix_cons 'e' s0).trans ((List.suffix_cons 'm' _).trans
    ((List.suffix_cons 'a' _).trans (List.suffix_cons 'n' _))))

theorem parseTail_suffix {s : Str} {d : Option Str} {r : Str}
    (h : parseTail s = some (d, r)) : r <:+ s := by
  unfold parseTail at h
  split at h
  · rename_i d0 s2 hattr
    split at h
    case h_2 => exact absurd h (by simp)
    rename_i s3 h2
    simp only [Option.some.injEq, Prod.mk.injEq] at h
    obtain ⟨-, rfl⟩ := h
    have hs : s3 <:+ s2 := (List.suffix_cons '}' s3).trans (dropWhile_cons_suffix h2)
    exact (hs.trans (parseAttr_suffix hattr)).trans (List.dropWhile_suffix _)
  · split at h
    case h_2 => exact absurd h (by simp)
    rename_i s3 h1
    simp only [Option.some.injEq, Prod.mk.injEq] at h
    obtain ⟨-, rfl⟩ := h
    have hs : s3 <:+ '}' :: s3 := List.suffix_cons '}' s3
    exact (hs.trans (dropWhile_cons_suffix h1)).trans (List.suffix_refl s)

theorem tryIdentLens_suffix {s2 : Str} {n : Nat} {nm : Str} {d : Option Str} {r : Str}
    (h : tryIdentLens s2 n = some (nm, d, r)) : r <:+ s2 := by
  induction n with
  | zero => exact absurd h (by simp [tryIdentLens])
  | succ n ih =>
    unfold tryIdentLens at h
    split at h
    · rename_i d0 rest htail
      obtain ⟨-, -, rfl⟩ : s2.take (n + 1) = nm ∧ d0 = d ∧ rest = r := by simpa using h
      exact (parseTail_suffix htail).trans (List.drop_suffix (n + 1) s2)
    · exact ih h

theorem matchVarAt_shape {s nm : Str} {d : Option Str} {r : Str}
    (h : matchVarAt s = some (nm, d, r)) :
    ∃ s1, s = '{' :: '{' :: s1 ∧ r <:+ s1 := by
  unfold matchVarAt at h
  split at h
  case h_2 => exact absurd h (by simp)
  rename_i s1
  exact ⟨s1, rfl, (tryIdentLens_suffix h).trans (List.dropWhile_suffix _)⟩

theorem matchKeyAt_shape {k s r : Str} (h : matchKeyAt k s = some r) :
    ∃ s1, s = '{' :: '{' :: s1 ∧ r <:+ s1 := by
  unfold matchKeyAt at h
  split at h
  case h_2 => exact absurd h (by simp)
  rename_i s1
  refine ⟨s1, rfl, ?_⟩
  split at h
  · split at h
    · rename_i d rest htail
      obtain rfl : rest = r := by simpa using h
      exact ((parseTail_suffix htail).trans (List.drop_suffix _ _)).trans
        (List.dropWhile_suffix _)
    · exact absurd h (by simp)
  · exact absurd h (by simp)

theorem extractScanF_nil : ∀ fuel, extractScanF fuel [] = []
  | 0 => rfl
  | _ + 1 => rfl

theorem matchVarAt_rest_le {c : Char} {cs nm : Str} {d : Option Str} {r : Str}
    (h : matchVarAt (c :: cs) = some (nm, d, r)) : r.length ≤ cs.length := by
  obtain ⟨s1, heq, hsuf⟩ := matchVarAt_shape h
  injection heq with h1 h2
  have := hsuf.length_le
  rw [h2]
  simp
  omega

theorem matchKeyAt_rest_le {k : Str} {c : Char} {cs r : Str}
    (h : matchKeyAt k (c :: cs) = some r) : r.length ≤ cs.length := by
  obtain ⟨s1, heq, hsuf⟩ := matchKeyAt_shape h
  injection heq with h1 h2
  have := hsuf.length_le
  rw [h2]
  simp
  omega

theorem extractScanF_fuel : ∀ {fuel : Nat} {s : Str}, s.length ≤ fuel →
    extractScanF fuel s = extractScan s := by
  intro fuel
  induction fuel using Nat.strong_induction_on with
  | _ fuel ih =>
    intro s h
    cases s with
    | nil => rw [extractScan, extractScanF_nil, List.length_nil, extractScanF_nil]
    | cons c cs =>
      cases fuel with
      | zero => simp at h
      | succ f =>
        have hle : cs.length + 1 ≤ f + 1 := by simpa using h
        cases hm : matchVarAt (c :: cs) with
        | some x =>
          obtain ⟨n, d, r⟩ := x
          have hlen : r.length ≤ cs.length := matchVarAt_rest_le hm
          rw [extractScan, List.length_cons]
          simp only [extractScanF, hm]
          rw [ih f (by omega) (by omega), ih cs.length (by omega) hlen]
        | none =>
          rw [extractScan, List.length_cons]
          simp only [extractScanF, hm]
          rw [ih f (by omega) (by omega), ih cs.length (by omega) (by omega)]

theorem extractScan_nil : extractScan [] = [] := rfl

theorem extractScan_cons_match {c : Char} {cs nm : Str} {d : Option Str} {r : Str}
    (h : matchVarAt (c :: cs) = some (nm, d, r)) :
    extractScan (c :: cs) = (nm, jsDesc d) :: extractScan r := by
  rw [extractScan, List.length_cons]
  simp only [extractScanF, h]
  rw [extractScanF_fuel (matchVarAt_rest_le h)]

theorem extractScan_cons_nomatch {c : Char} {cs : Str}
    (h : matchVarAt (c :: cs) = none) :
    extractScan (c :: cs) = extractScan cs := by
  rw [extractScan, List.length_cons]
  simp only [extractScanF, h]
  exact extractScanF_fuel (Nat.le_refl _)

theorem replaceKeyF_nil {k val : Str} : ∀ fuel, replaceKeyF k val fuel [] = []
  | 0 => rfl
  | _ + 1 => rfl

theorem replaceKeyF_fuel {k val : Str} : ∀ {fuel : Nat} {s : Str}, s.length ≤ fuel →
    replaceKeyF k val fuel s = replaceKey k val s := by
  intro fuel
  induction fuel using Nat.strong_induction_on with
  | _ fuel ih =>
    intro s h
    cases s with
    | nil => rw [replaceKey, replaceKeyF_nil, List.length_nil, replaceKeyF_nil]
    | cons c cs =>
      cases fuel with
      | zero => simp at h
      | succ f =>
        have hle : cs.length + 1 ≤ f + 1 := by simpa using h
        cases hm : matchKeyAt k (c :: cs) with
        | some r =>
          have hlen : r.length ≤ cs.length := matchKeyAt_rest_le hm
          rw [replaceKey, List.length_cons]
          simp only [replaceKeyF, hm]
          rw [ih f (by omega) (by omega), ih cs.length (by omega) hlen]
        | none =>
          rw [replaceKey, List.length_cons]
          simp only [replaceKeyF, hm]
          rw [ih f (by omega) (by omega), ih cs.length (by omega) (by omega)]

theorem replaceKey_nil {k val : Str} : replaceKey k val [] = [] := rfl

theorem replaceKey_cons_match {k val : Str} {c : Char} {cs r : Str}
    (h : matchKeyAt k (c :: cs) = some r) :
    replaceKey k val (c :: cs) = val ++ replaceKey k val r := by
  rw [replaceKey, List.length_cons]
  simp only [replaceKeyF, h]
  rw [replaceKeyF_fuel (matchKeyAt_rest_le h)]

theorem replaceKey_cons_nomatch {k val : Str} {c : Char} {cs : Str}
    (h : matchKeyAt k (c :: cs) = none) :
    replaceKey k val (c :: cs) = c :: replaceKey k val cs := by
  rw [replaceKey, List.length_cons]
  simp only [replaceKeyF, h]
  rw [replaceKeyF_fuel (Nat.le_refl _)]

/-! ## Character classes -/

theorem char_ne_of_toNat_ne {c d : Char} (h : c.toNat ≠ d.toNat) : c ≠ d :=
  fun hc => h (congrArg Char.toNat hc)

theorem identStart_toNat {c : Char} (h : isIdentStart c = true) :
    (0x61 ≤ c.toNat ∧ c.toNat ≤ 0x7a) ∨ (0x41 ≤ c.toNat ∧ c.toNat ≤ 0x5a) ∨
    c.toNat = 0x5f := by
  simp only [isIdentStart, Bool.or_eq_true, Bool.and_eq_true, decide_eq_true_eq] at h
  tauto

theorem identChar_toNat {c : Char} (h : isIdentChar c = true) :
    (0x61 ≤ c.toNat ∧ c.toNat ≤ 0x7a) ∨ (0x41 ≤ c.toNat ∧ c.toNat ≤ 0x5a) ∨
    c.toNat = 0x5f ∨ (0x30 ≤ c.toNat ∧ c.toNat ≤ 0x39) := by
  have := @identStart_toNat c
  simp only [isIdentChar, Bool.or_eq_true] at h
  rcases h with h | h
  · tauto
  · simp only [Bool.and_eq_true, decide_eq_true_eq] at h
    tauto

theorem space_toNat {c : Char} (h : isJsSpace c = true) :
    c.toNat = 0x20 ∨ c.toNat = 0x9 ∨ c.toNat = 0xa ∨ c.toNat = 0xd ∨
    c.toNat = 0xb ∨ c.toNat = 0xc ∨ c.toNat = 0xa0 ∨ c.toNat = 0x1680 ∨
    (0x2000 ≤ c.toNat ∧ c.toNat ≤ 0x200a) ∨ c.toNat = 0x2028 ∨
    c.toNat = 0x2029 ∨ c.toNat = 0x202f ∨ c.toNat = 0x205f ∨
    c.toNat = 0x3000 ∨ c.toNat = 0xfeff := by
  simp only [isJsSpace, Bool.or_eq_true, Bool.and_eq_true, decide_eq_true_eq] at h
  tauto

theorem identStart_isIdentChar {c : Char} (h : isIdentStart c = true) :
    isIdentChar c = true := by
  simp [isIdentChar, h]

theorem identChar_not_space {c : Char} (h : isIdentChar c = true) :
    isJsSpace c = false := by
  have hv := identChar_toNat h
  simp only [isJsSpace, Bool.or_eq_false_iff, Bool.and_eq_false_iff,
    decide_eq_false_iff_not]
  omega

theorem space_not_identChar {c : Char} (h : isJsSpace c = true) :
    isIdentChar c = false := by
  have hv := space_toNat h
  simp only [isIdentChar, isIdentStart, Bool.or_eq_false_iff, Bool.and_eq_false_iff,
    decide_eq_false_iff_not]
  omega

theorem identChar_ne_brace {c : Char} (h : isIdentChar c = true) :
    c ≠ '{' ∧ c ≠ '}' := by
  have hv := identChar_toNat h
  exact ⟨char_ne_of_toNat_ne (by simpa using by omega),
    char_ne_of_toNat_ne (by simpa using by omega)⟩

theorem space_ne_brace {c : Char} (h : isJsSpace c = true) :
    c ≠ '{' ∧ c ≠ '}' := by
  have hv := space_toNat h
  exact ⟨char_ne_of_toNat_ne (by simpa using by omega),
    char_ne_of_toNat_ne (by simpa using by omega)⟩

theorem isIdentStr_shape {nm : Str} (h : isIdentStr nm = true) :
    ∃ n0 nrest, nm = n0 :: nrest ∧ isIdentStart n0 = true ∧
      nrest.all isIdentChar = true := by
  cases nm with
  | nil => exact absurd h (by simp [isIdentStr])
  | cons n0 nrest =>
    simp only [isIdentStr, Bool.and_eq_true] at h
    exact ⟨n0, nrest, rfl, h.1, h.2⟩

/-! ## List scanning helpers -/

theorem dropWhile_all_append {p : Char → Bool} {w : Str} (hw : w.all p = true)
    (rest : Str) : (w ++ rest).dropWhile p = rest.dropWhile p := by
  induction w with
  | nil => rfl
  | cons c cs ih =>
    simp only [List.all_cons, Bool.and_eq_true] at hw
    simp [List.dropWhile_cons, hw.1, ih hw.2]

theorem dropWhile_cons_neg {p : Char → Bool} {c : Char} {cs : Str}
    (h : p c = false) : (c :: cs).dropWhile p = c :: cs := by
  simp [List.dropWhile_cons, h]

theorem takeWhile_all_append {p : Char → Bool} {u : Str} (hu : u.all p = true)
    {v : Char} {rest : Str} (hv : p v = false) :
    (u ++ v :: rest).takeWhile p = u ∧ (u ++ v :: rest).dropWhile p = v :: rest := by
  induction u with
  | nil => simp [List.takeWhile_cons, List.dropWhile_cons, hv]
  | cons c cs ih =>
    simp only [List.all_cons, Bool.and_eq_true] at hu
    have h2 := ih hu.2
    simp [List.takeWhile_cons, List.dropWhile_cons, hu.1, h2.1, h2.2]

theorem takeWhile_all_nil {p : Char → Bool} {u : Str} (hu : u.all p = true) :
    u.takeWhile p = u ∧ u.dropWhile p = [] := by
  induction u with
  | nil => simp
  | cons c cs ih =>
    simp only [List.all_cons, Bool.and_eq_true] at hu
    have h2 := ih hu.2
    simp [List.takeWhile_cons, List.dropWhile_cons, hu.1, h2.1, h2.2]

theorem takeWhile_all_append2 {p : Char → Bool} {u : Str} (hu : u.all p = true)
    (v : Str) : (u ++ v).takeWhile p = u ++ v.takeWhile p := by
  induction u with
  | nil => rfl
  | cons c cs ih =>
    simp only [List.all_cons, Bool.and_eq_true] at hu
    simp [List.takeWhile_cons, hu.1, ih hu.2]

/-! ## The placeholder grammar on well-formed inputs -/

theorem parseTail_close {w3 : Str} (hw3 : w3.all isJsSpace = true) (rest : Str) :
    parseTail (w3 ++ '}' :: '}' :: rest) = some (none, rest) := by
  unfold parseTail
  rw [dropWhile_all_append hw3, dropWhile_cons_neg (by decide)]
  rfl

theorem parseAttr_attr {d : Str} (hd : d.all (fun c => !(c = '"')) = true)
    (after : Str) :
    parseAttr ('n' :: 'a' :: 'm' :: 'e' :: '=' :: '"' :: (d ++ '"' :: after)) =
      some (d, after) := by
  show (match List.dropWhile (fun c => !(c = '"')) (d ++ '"' :: after) with
    | '"' :: s5 => some (List.takeWhile (fun c => !(c = '"')) (d ++ '"' :: after), s5)
    | _ => none) = some (d, after)
  rw [(takeWhile_all_append hd (by decide)).2]
  show some (List.takeWhile (fun c => !(c = '"')) (d ++ '"' :: after), after) =
    some (d, after)
  rw [(takeWhile_all_append hd (by decide)).1]

theorem parseTail_attr {w2 w3 d : Str} (hw2 : w2.all isJsSpace = true)
    (hw3 : w3.all isJsSpace = true) (hd : d.all (fun c => !(c = '"')) = true)
    (rest : Str) :
    parseTail (w2 ++ 'n' :: 'a' :: 'm' :: 'e' :: '=' :: '"' ::
        (d ++ '"' :: (w3 ++ '}' :: '}' :: rest))) = some (some d, rest) := by
  unfold parseTail
  rw [dropWhile_all_append hw2, dropWhile_cons_neg (by decide), parseAttr_attr hd]
  show (match List.dropWhile isJsSpace (w3 ++ '}' :: '}' :: rest) with
    | '}' :: '}' :: s3 => some (some d, s3)
    | _ => none) = some (some d, rest)
  rw [dropWhile_all_append hw3, dropWhile_cons_neg (by decide)]
  rfl

theorem matchVarAt_form {nm w1 tail : Str} (hnm : isIdentStr nm = true)
    (hw1 : w1.all isJsSpace = true) (htk : tail.takeWhile isIdentChar = [])
    {d : Option Str} {rest : Str} (hpt : parseTail tail = some (d, rest)) :
    matchVarAt ('{' :: '{' :: (w1 ++ (nm ++ tail))) = some (nm, d, rest) := by
  obtain ⟨n0, nrest, rfl, hn0, hnr⟩ := isIdentStr_shape hnm
  simp only [matchVarAt]
  rw [dropWhile_all_append hw1, List.cons_append,
    dropWhile_cons_neg (identChar_not_space (identStart_isIdentChar hn0))]
  have hmax : identMaxLen (n0 :: (nrest ++ tail)) = nrest.length + 1 := by
    simp only [identMaxLen, hn0, if_pos, takeWhile_all_append2 hnr, htk,
      List.append_nil]
  rw [hmax]
  unfold tryIdentLens
  rw [show nrest.length + 1 = (n0 :: nrest).length from by simp, ← List.cons_append]
  rw [@List.take_left' _ (n0 :: nrest) tail (n0 :: nrest).length rfl,
    @List.drop_left' _ (n0 :: nrest) tail (n0 :: nrest).length rfl]
  rw [hpt]

theorem matchKeyAt_form {k w1 tail : Str} (hk : isIdentStr k = true)
    (hw1 : w1.all isJsSpace = true) {d : Option Str} {rest : Str}
    (hpt : parseTail tail = some (d, rest)) :
    matchKeyAt k ('{' :: '{' :: (w1 ++ (k ++ tail))) = some rest := by
  obtain ⟨k0, krest, hkeq, hk0, hkr⟩ := isIdentStr_shape hk
  simp only [matchKeyAt]
  rw [dropWhile_all_append hw1, hkeq, List.cons_append,
    dropWhile_cons_neg (identChar_not_space (identStart_isIdentChar hk0)),
    ← List.cons_append, ← hkeq]
  have hpre : k.isPrefixOf (k ++ tail) = true := by
    rw [List.isPrefixOf_iff_prefix]
    exact List.prefix_append k tail
  rw [hpre, if_pos rfl, List.drop_left, hpt]

theorem takeWhile_ident_ws_close {w : Str} (hw : w.all isJsSpace = true)
    (c : Char) (hc : isIdentChar c = false) (rest : Str) :
    (w ++ c :: rest).takeWhile isIdentChar = [] := by
  cases w with
  | nil => simp [List.takeWhile_cons, hc]
  | cons c0 cs =>
    simp only [List.all_cons, Bool.and_eq_true] at hw
    simp [List.takeWhile_cons, space_not_identChar hw.1]

/-! ## Claim theorems: the variable scanner -/

/-- Claim C6 counterexample: the annotated placeholder attribute keyword
is name, not description: the extraction pattern ignores a placeholder
written with the description keyword, while the same placeholder written
with the name keyword is recognized with its quoted text. -/
theorem variable_attr_keyword_cex :
    extractVariables ("\x7b\x7b x description=\"d\" \x7d\x7d".data) = [] ∧
    extractVariables ("\x7b\x7b x name=\"d\" \x7d\x7d".data) =
      [("x".data, some ("d".data))] :=
  ⟨rfl, rfl⟩

/-- Claim C6 (corrected): extractVariables recognizes the bare form
(double braces, optional surrounding whitespace, identifier) and the
annotated form whose quoted description attribute is introduced by the
keyword name, not description; a non-empty quoted text is recorded as
the placeholder description and the interactive prompt label shows it in
front of the parenthesized variable name, while an empty quoted text is
coerced to a null description (match[2] || null) and the prompt label
falls back to the bare name, exactly as for an unannotated placeholder. -/
theorem variable_grammar (nm w1 w2 w3 d : Str)
    (hnm : isIdentStr nm = true)
    (hw1 : w1.all isJsSpace = true) (hw2 : w2.all isJsSpace = true)
    (hw3 : w3.all isJsSpace = true) (hw2ne : w2 ≠ [])
    (hd : d.all (fun c => !(c = '"')) = true) :
    extractVariables ('{' :: '{' :: (w1 ++ (nm ++ (w3 ++ ['}', '}'])))) =
      [(nm, none)] ∧
    (d ≠ [] → extractVariables ('{' :: '{' :: (w1 ++ (nm ++ (w2 ++ 'n' :: 'a' :: 'm' :: 'e' ::
        '=' :: '"' :: (d ++ '"' :: (w3 ++ '}' :: '}' :: [])))))) = [(nm, some d)]) ∧
    extractVariables ('{' :: '{' :: (w1 ++ (nm ++ (w2 ++ 'n' :: 'a' :: 'm' :: 'e' ::
        '=' :: '"' :: ('"' :: (w3 ++ '}' :: '}' :: [])))))) = [(nm, none)] ∧
    (d ≠ [] → promptLabel nm (some d) = d ++ " (".data ++ nm ++ "): ".data) ∧
    promptLabel nm (some []) = nm ++ ": ".data ∧
    promptLabel nm none = nm ++ ": ".data := by
  have key : ∀ d2 : Str, d2.all (fun c => !(c = '"')) = true →
      extractVariables ('{' :: '{' :: (w1 ++ (nm ++ (w2 ++ 'n' :: 'a' :: 'm' :: 'e' ::
        '=' :: '"' :: (d2 ++ '"' :: (w3 ++ '}' :: '}' :: [])))))) =
        [(nm, jsDesc (some d2))] := by
    intro d2 hd2
    obtain ⟨c2, w2t, rfl⟩ : ∃ c2 w2t, w2 = c2 :: w2t := by
      cases w2 with
      | nil => exact absurd rfl hw2ne
      | cons a b => exact ⟨a, b, rfl⟩
    have hm := @matchVarAt_form nm w1
      ((c2 :: w2t) ++ 'n' :: 'a' :: 'm' :: 'e' :: '=' :: '"' ::
        (d2 ++ '"' :: (w3 ++ '}' :: '}' :: []))) hnm hw1
      (by
        have hsp : isJsSpace c2 = true := by
          have := hw2
          simp only [List.all_cons, Bool.and_eq_true] at this
          exact this.1
        simp [List.takeWhile_cons, space_not_identChar hsp])
      (some d2) [] (parseTail_attr hw2 hw3 hd2 [])
    rw [extractVariables, extractScan_cons_match hm, extractScan_nil]
    simp [dedupFirst]
  refine ⟨?_, ?_, ?_, ?_, rfl, rfl⟩
  · have hm := @matchVarAt_form nm w1 (w3 ++ ['}', '}']) hnm hw1
      (takeWhile_ident_ws_close hw3 '}' (by decide) _)
      none [] (by simpa using parseTail_close hw3 [])
    rw [extractVariables, extractScan_cons_match hm, extractScan_nil]
    simp [dedupFirst, jsDesc]
  · intro hdne
    rw [key d hd]
    cases d with
    | nil => exact absurd rfl hdne
    | cons c cs => rfl
  · have h3 := key [] rfl
    simpa [jsDesc] using h3
  · intro hdne
    cases d with
    | nil => exact absurd rfl hdne
    | cons c cs => rfl

/-- Witness for the corrected C6 theorem at a concrete annotated
placeholder with a non-empty description, plus the empty-description
coercion of the same placeholder shape. -/
theorem variable_grammar_witness :
    extractVariables ('{' :: '{' :: (" ".data ++ ("topic".data ++
      (" ".data ++ 'n' :: 'a' :: 'm' :: 'e' :: '=' :: '"' ::
        ("What topic".data ++ '"' :: (" ".data ++ '}' :: '}' :: [])))))) =
      [("topic".data, some ("What topic".data))] ∧
    extractVariables ('{' :: '{' :: (" ".data ++ ("topic".data ++
      (" ".data ++ 'n' :: 'a' :: 'm' :: 'e' :: '=' :: '"' ::
        ('"' :: (" ".data ++ '}' :: '}' :: [])))))) =
      [("topic".data, none)] ∧
    promptLabel ("topic".data) (some ("What topic".data)) =
      "What topic (topic): ".data ∧
    promptLabel ("topic".data) (some []) = "topic: ".data := by
  have h := variable_grammar ("topic".data) (" ".data) (" ".data) (" ".data)
    ("What topic".data) (by decide) (by decide) (by decide) (by decide)
    (by decide) (by decide)
  exact ⟨h.2.1 (by decide), h.2.2.1, h.2.2.2.1 (by decide), h.2.2.2.2.1⟩

/-! ## Deduplication lemmas -/

theorem dedupFirst_eq_spec : ∀ (xs : List (Str × Option Str)) (seen : List Str),
    dedupFirst xs seen = firstAppearanceSpec (xs.filter (fun x => !(decide (x.1 ∈ seen)))) := by
  intro xs
  induction xs with
  | nil => intro seen; simp [dedupFirst, firstAppearanceSpec]
  | cons x xs ih =>
    intro seen
    obtain ⟨n, d⟩ := x
    by_cases hn : n ∈ seen
    · rw [dedupFirst, if_pos hn, ih seen, List.filter_cons]
      simp [hn]
    · rw [dedupFirst, if_neg hn, List.filter_cons,
        if_pos (by simp [hn] : (!decide ((n, d).1 ∈ seen)) = true),
        firstAppearanceSpec, ih (n :: seen), List.filter_filter]
      congr 1
      congr 1
      apply List.filter_congr
      intro a _
      by_cases h1 : a.1 = n
      · simp [h1]
      · by_cases h2 : a.1 ∈ seen <;> simp [h1, h2]

theorem dedupFirst_not_mem_seen : ∀ (xs : List (Str × Option Str)) (seen : List Str)
    (nm : Str) (d : Option Str), nm ∈ seen → (nm, d) ∉ dedupFirst xs seen := by
  intro xs
  induction xs with
  | nil => intro seen nm d _ h; exact absurd h (List.not_mem_nil _)
  | cons x xs ih =>
    intro seen nm d hseen
    obtain ⟨n, e⟩ := x
    by_cases hn : n ∈ seen
    · simpa [dedupFirst, if_pos hn] using ih seen nm d hseen
    · simp only [dedupFirst, if_neg hn, List.mem_cons]
      rintro (heq | hmem)
      · injection heq with h1 h2
        exact hn (h1 ▸ hseen)
      · exact ih (n :: seen) nm d (List.mem_cons_of_mem _ hseen) hmem

theorem dedupFirst_mem_iff_find : ∀ (xs : List (Str × Option Str)) (seen : List Str)
    (nm : Str) (d : Option Str), nm ∉ seen →
    ((nm, d) ∈ dedupFirst xs seen ↔ xs.find? (fun x => x.1 == nm) = some (nm, d)) := by
  intro xs
  induction xs with
  | nil => intro seen nm d _; simp [dedupFirst]
  | cons x xs ih =>
    intro seen nm d hnm
    obtain ⟨n, e⟩ := x
    by_cases heq : n = nm
    · subst heq
      rw [dedupFirst, if_neg hnm, List.find?_cons_of_pos _ (by simp)]
      constructor
      · intro h
        rcases List.mem_cons.mp h with h1 | h1
        · injection h1 with h2 h3
          rw [h3]
        · exact absurd h1 (dedupFirst_not_mem_seen xs (n :: seen) n d (by simp))
      · intro h
        injection h with h1
        rw [← h1]
        exact List.mem_cons_self _ _
    · rw [List.find?_cons_of_neg _ (by simp [heq])]
      by_cases hn : n ∈ seen
      · rw [dedupFirst, if_pos hn]
        exact ih seen nm d hnm
      · rw [dedupFirst, if_neg hn]
        have hnm2 : nm ∉ n :: seen := by
          intro hc
          rcases List.mem_cons.mp hc with h | h
          · exact heq h.symm
          · exact hnm h
        rw [← ih (n :: seen) nm d hnm2]
        constructor
        · intro h
          rcases List.mem_cons.mp h with h1 | h1
          · injection h1 with h2 h3
            exact absurd h2.symm heq
          · exact h1
        · intro h
          exact List.mem_cons_of_mem _ h

theorem dedupFirst_names_nodup : ∀ (xs : List (Str × Option Str)) (seen : List Str),
    ((dedupFirst xs seen).map Prod.fst).Nodup ∧
    ∀ nm ∈ (dedupFirst xs seen).map Prod.fst, nm ∉ seen := by
  intro xs
  induction xs with
  | nil => intro seen; simp [dedupFirst]
  | cons x xs ih =>
    intro seen
    obtain ⟨n, e⟩ := x
    by_cases hn : n ∈ seen
    · simpa [dedupFirst, if_pos hn] using ih seen
    · obtain ⟨ihn, ihs⟩ := ih (n :: seen)
      refine ⟨?_, ?_⟩
      · simp only [dedupFirst, if_neg hn, List.map_cons, List.nodup_cons]
        exact ⟨fun hmem => (ihs n hmem) (by simp), ihn⟩
      · simp only [dedupFirst, if_neg hn, List.map_cons, List.mem_cons]
        rintro nm (rfl | hmem)
        · exact hn
        · exact fun hs => (ihs nm hmem) (List.mem_cons_of_mem _ hs)

/-! ## Claim theorems: extraction order and substitution sequencing -/

/-- Claim C8 (confirmed): extraction is idempotent (the scanner is a
pure function of the template: the global regex state is recreated on
every call, so a second application yields the same sequence
definitionally) and order-preserving: the result is exactly the
first-appearance sequence of the left-to-right scan, each distinct name
appears exactly once, and the entry recorded for a name is the first
match of that name, so the first description wins. -/
theorem extract_idempotent_first_wins (t : Str) :
    extractVariables t = extractVariables t ∧
    extractVariables t = firstAppearanceSpec (extractScan t) ∧
    ((extractVariables t).map Prod.fst).Nodup ∧
    (∀ nm d, (nm, d) ∈ extractVariables t ↔
      (extractScan t).find? (fun x => x.1 == nm) = some (nm, d)) := by
  refine ⟨rfl, ?_, ?_, ?_⟩
  · rw [extractVariables, dedupFirst_eq_spec]
    congr 1
    rw [List.filter_eq_self]
    intro a _
    simp
  · exact (dedupFirst_names_nodup (extractScan t) []).1
  · intro nm d
    exact dedupFirst_mem_iff_find (extractScan t) [] nm d (List.not_mem_nil nm)

/-- Claim C1 counterexample: with the map a to double-brace b, b to B,
substituting into the template consisting of the placeholder a yields B:
the value substituted for a is re-scanned by the later pass for b, so
substitution is not literal and placeholder syntax inside a substituted
value is replaced when it names a later key of the same map. -/
theorem substitution_rescans_cex :
    replaceVariables (bareL ("a".data)) [("a".data, bareL ("b".data)), ("b".data, "B".data)] =
      "B".data ∧
    ¬ (bareL ("b".data) <:+:
      replaceVariables (bareL ("a".data))
        [("a".data, bareL ("b".data)), ("b".data, "B".data)]) ∧
    ("a".data, bareL ("b".data)) ∈
      [("a".data, bareL ("b".data)), ("b".data, "B".data)] := by
  refine ⟨rfl, ?_, by simp⟩
  decide

/-- Claim C1 (corrected): substitution processes the map entries
sequentially in map order, one global replacement pass per entry, each
pass operating on the output of the previous one; within one pass the
value is spliced literally and never re-scanned for the same key (every
substring of the value, placeholder syntax included, survives into the
output of that pass), but a value substituted for an earlier entry is
part of the string scanned by later entries, so placeholder syntax for a
later key of the map inside a substituted value is replaced. -/
theorem substitution_sequential (t va vb val : Str) (a b k : Str)
    (kv : Str × Str) (rest : List (Str × Str))
    (_hk : isIdentStr k = true) (ha : isIdentStr a = true) (hb : isIdentStr b = true)
    (_hval : noDollar val) (_hva : noDollar va) (_hvb : noDollar vb) :
    (replaceVariables t [] = t ∧
      replaceVariables t (kv :: rest) = replaceVariables (replaceKey kv.1 kv.2 t) rest) ∧
    (hasMatchB k t = true → ∀ sub, sub <:+: val → sub <:+: replaceKey k val t) ∧
    replaceVariables (bareL a) [(a, va), (b, vb)] = replaceKey b vb va ∧
    replaceVariables (bareL a) [(a, bareL b), (b, vb)] = vb := by
  have hbare : ∀ (c : Str) (w : Str), isIdentStr c = true →
      replaceKey c w (bareL c) = w := by
    intro c w hc
    have hm : matchKeyAt c (bareL c) = some [] := by
      have := @matchKeyAt_form c [] ['}', '}'] hc rfl none []
        (by simpa using @parseTail_close [] rfl [])
      simpa [bareL] using this
    cases hb2 : bareL c with
    | nil => simp [bareL] at hb2
    | cons c0 cs =>
      rw [← hb2, show bareL c = c0 :: cs from hb2,
        replaceKey_cons_match (hb2 ▸ hm), replaceKey_nil, List.append_nil]
  refine ⟨⟨rfl, rfl⟩, ?_, ?_, ?_⟩
  · intro hmatch sub hsub
    induction t with
    | nil => simp [hasMatchB] at hmatch
    | cons c cs ih =>
      cases hm : matchKeyAt k (c :: cs) with
      | some r =>
        rw [replaceKey_cons_match hm]
        obtain ⟨u, w, huw⟩ := hsub
        refine ⟨u, w ++ replaceKey k val r, ?_⟩
        rw [← huw]
        simp [List.append_assoc]
      | none =>
        rw [replaceKey_cons_nomatch hm]
        have hmatch2 : hasMatchB k cs = true := by
          simpa [hasMatchB, hm] using hmatch
        exact List.infix_cons (ih hmatch2)
  · show replaceKey b vb (replaceKey a va (bareL a)) = replaceKey b vb va
    rw [hbare a va ha]
  · show replaceKey b vb (replaceKey a (bareL b) (bareL a)) = vb
    rw [hbare a (bareL b) ha, hbare b vb hb]

/-- Witness for the corrected C1 theorem at the counterexample inputs. -/
theorem substitution_sequential_witness :
    replaceVariables (bareL ("a".data))
      [("a".data, bareL ("b".data)), ("b".data, "B".data)] = "B".data ∧
    (bareL ("b".data)) <:+:
      replaceKey ("a".data) (bareL ("b".data)) (bareL ("a".data)) := by
  have h := substitution_sequential (bareL ("a".data)) (bareL ("b".data)) ("B".data)
    (bareL ("b".data)) ("a".data) ("b".data) ("a".data)
    (("a".data, bareL ("b".data))) [] (by decide) (by decide) (by decide)
    (by decide) (by decide) (by decide)
  refine ⟨h.2.2.2, ?_⟩
  have h2 := h.2.1 (by decide) (bareL ("b".data)) (List.infix_refl _)
  exact h2

/-! ## Replacement pass analysis: where the key pattern cannot match -/

theorem matchKeyAt_head_ne {k : Str} {c : Char} {cs : Str} (h : c ≠ '{') :
    matchKeyAt k (c :: cs) = none := by
  unfold matchKeyAt
  split
  · rename_i s1 heq
    injection heq with h1 h2
    exact absurd h1 h
  · rfl

theorem matchKeyAt_second_ne {k : Str} {c c2 : Char} {cs : Str} (h : c2 ≠ '{') :
    matchKeyAt k (c :: c2 :: cs) = none := by
  unfold matchKeyAt
  split
  · rename_i s1 heq
    injection heq with h1 h2
    injection h2 with h3 h4
    exact absurd h3 h
  · rfl

theorem replaceKey_no_match {k val : Str} : ∀ {t : Str},
    hasMatchB k t = false → replaceKey k val t = t := by
  intro t
  induction t with
  | nil => intro _; rfl
  | cons c cs ih =>
    intro h
    simp only [hasMatchB, Bool.or_eq_false_iff] at h
    have hm : matchKeyAt k (c :: cs) = none := by
      cases hmm : matchKeyAt k (c :: cs)
      · rfl
      · rw [hmm] at h
        exact absurd h.1 (by simp)
    rw [replaceKey_cons_nomatch hm, ih h.2]

theorem replaceVariables_no_match {t : Str} : ∀ {v : List (Str × Str)},
    (∀ kv ∈ v, hasMatchB kv.1 t = false) → replaceVariables t v = t := by
  intro v
  induction v with
  | nil => intro _; rfl
  | cons kv rest ih =>
    intro h
    show replaceVariables (replaceKey kv.1 kv.2 t) rest = t
    rw [replaceKey_no_match (h kv (List.mem_cons_self _ _))]
    exact ih (fun x hx => h x (List.mem_cons_of_mem _ hx))

theorem no_brace_emit {k val : Str} : ∀ (u rest : Str), (∀ c ∈ u, c ≠ '{') →
    replaceKey k val (u ++ rest) = u ++ replaceKey k val rest := by
  intro u
  induction u with
  | nil => intro rest _; rfl
  | cons c u2 ih =>
    intro rest h
    rw [List.cons_append,
      replaceKey_cons_nomatch (matchKeyAt_head_ne (h c (List.mem_cons_self _ _))),
      ih rest (fun x hx => h x (List.mem_cons_of_mem _ hx)), List.cons_append]

theorem parseAttr_some_shape {u d r : Str} (h : parseAttr u = some (d, r)) :
    ∃ u1, u = 'n' :: 'a' :: 'm' :: 'e' :: u1 ∧
      (u1.dropWhile isJsSpace).head? = some '=' := by
  unfold parseAttr at h
  split at h
  case h_2 => exact absurd h (by simp)
  rename_i s0
  refine ⟨s0, rfl, ?_⟩
  split at h
  case h_2 => exact absurd h (by simp)
  rename_i s2 h0
  rw [h0]
  rfl

theorem parseAttr_quote {u d r : Str} (h : parseAttr u = some (d, r)) : '"' ∈ u := by
  unfold parseAttr at h
  split at h
  case h_2 => exact absurd h (by simp)
  rename_i s0
  split at h
  case h_2 => exact absurd h (by simp)
  rename_i s2 h0
  split at h
  case h_2 => exact absurd h (by simp)
  rename_i s4 h2
  have m1 : '"' ∈ List.dropWhile isJsSpace s2 := by rw [h2]; simp
  have m2 : '"' ∈ s2 := (List.dropWhile_sublist _).subset m1
  have m3 : '"' ∈ List.dropWhile isJsSpace s0 := by rw [h0]; simp [m2]
  have m4 : '"' ∈ s0 := (List.dropWhile_sublist _).subset m3
  simp [m4]

theorem parseTail_noQuote {u : Str} {d : Option Str} {r : Str} (hq : noQuote u)
    (h : parseTail u = some (d, r)) :
    d = none ∧ u.dropWhile isJsSpace = '}' :: '}' :: r := by
  unfold parseTail at h
  split at h
  · rename_i d0 s2 hattr
    have : '"' ∈ u :=
      (List.dropWhile_sublist _).subset (parseAttr_quote hattr)
    exact absurd this hq
  · split at h
    case h_2 => exact absurd h (by simp)
    rename_i s3 h1
    simp only [Option.some.injEq, Prod.mk.injEq] at h
    exact ⟨h.1.symm, by rw [h1, h.2]⟩

theorem isIdentStr_all {k : Str} (h : isIdentStr k = true) :
    k.all isIdentChar = true := by
  obtain ⟨k0, kr, rfl, hk0, hkr⟩ := isIdentStr_shape h
  simp [List.all_cons, identStart_isIdentChar hk0, hkr]

theorem parseTail_idspan {w rest : Str} (hw : w ≠ []) (hall : w.all isIdentChar = true) :
    parseTail (w ++ '}' :: '}' :: rest) = none := by
  obtain ⟨c, w2, rfl⟩ : ∃ c w2, w = c :: w2 := by
    cases w with
    | nil => exact absurd rfl hw
    | cons a b => exact ⟨a, b, rfl⟩
  have hc : isIdentChar c = true := by
    simp only [List.all_cons, Bool.and_eq_true] at hall
    exact hall.1
  have hw2 : w2.all isIdentChar = true := by
    simp only [List.all_cons, Bool.and_eq_true] at hall
    exact hall.2
  unfold parseTail
  rw [List.cons_append, dropWhile_cons_neg (identChar_not_space hc)]
  have hpa : parseAttr (c :: (w2 ++ '}' :: '}' :: rest)) = none := by
    cases hp : parseAttr (c :: (w2 ++ '}' :: '}' :: rest)) with
    | none => rfl
    | some x =>
      obtain ⟨d0, r0⟩ := x
      obtain ⟨u1, hequ, hhead⟩ := parseAttr_some_shape hp
      exfalso
      rcases w2 with _ | ⟨c2, w3⟩
      · simp only [List.nil_append] at hequ
        injection hequ with e1 e2
        injection e2 with e3 e4
        exact absurd e3 (by decide)
      rcases w3 with _ | ⟨c3, w4⟩
      · simp only [List.cons_append, List.nil_append] at hequ
        injection hequ with e1 e2
        injection e2 with e3 e4
        injection e4 with e5 e6
        exact absurd e5 (by decide)
      rcases w4 with _ | ⟨c4, w5⟩
      · simp only [List.cons_append, List.nil_append] at hequ
        injection hequ with e1 e2
        injection e2 with e3 e4
        injection e4 with e5 e6
        injection e6 with e7 e8
        exact absurd e7 (by decide)
      · simp only [List.cons_append] at hequ
        injection hequ with e1 e2
        injection e2 with e3 e4
        injection e4 with e5 e6
        injection e6 with e7 e8
        rw [← e8] at hhead
        have hw5 : w5.all isIdentChar = true := by
          simp only [List.all_cons, Bool.and_eq_true] at hw2
          exact hw2.2.2.2
        cases w5 with
        | nil =>
          rw [List.nil_append] at hhead
          rw [dropWhile_cons_neg (by decide)] at hhead
          exact absurd (Option.some.inj hhead) (by decide)
        | cons c5 w6 =>
          have hc5 : isIdentChar c5 = true := by
            simp only [List.all_cons, Bool.and_eq_true] at hw5
            exact hw5.1
          rw [List.cons_append, dropWhile_cons_neg (identChar_not_space hc5)] at hhead
          have : c5 = '=' := Option.some.inj hhead
          have hne : c5 ≠ '=' := by
            have hv := identChar_toNat hc5
            exact char_ne_of_toNat_ne (by simpa using by omega)
          exact hne this
  rw [hpa]
  split
  · rename_i d0 s3 heq
    simp at heq
  · split
    · rename_i s3 heq
      injection heq with e1 _
      exact absurd e1 (identChar_ne_brace hc).2
    · rfl

theorem matchKeyAt_bare_start {k nm rest : Str} (hk : isIdentStr k = true)
    (hnm : isIdentStr nm = true) (hne : k ≠ nm) :
    matchKeyAt k ('{' :: '{' :: (nm ++ '}' :: '}' :: rest)) = none := by
  obtain ⟨n0, nr, rfl, hn0, hnr⟩ := isIdentStr_shape hnm
  have hallnm : (n0 :: nr).all isIdentChar = true := by
    simp [List.all_cons, identStart_isIdentChar hn0, hnr]
  simp only [matchKeyAt]
  rw [List.cons_append,
    dropWhile_cons_neg (identChar_not_space (identStart_isIdentChar hn0)),
    ← List.cons_append]
  cases hpre : k.isPrefixOf ((n0 :: nr) ++ '}' :: '}' :: rest) with
  | false => simp [hpre]
  | true =>
    have hkpre : k <+: (n0 :: nr) ++ '}' :: '}' :: rest :=
      List.isPrefixOf_iff_prefix.mp hpre
    simp only [hpre, if_true]
    rcases Nat.lt_or_ge (n0 :: nr).length k.length with hlen | hlen
    · exfalso
      have htake : k = ((n0 :: nr) ++ '}' :: '}' :: rest).take k.length :=
        List.prefix_iff_eq_take.mp hkpre
      have hmem : '}' ∈ k := by
        rw [htake]
        have hm : k.length = (n0 :: nr).length + (k.length - (n0 :: nr).length) := by
          omega
        rw [hm, List.take_append]
        have hm1 : 1 ≤ k.length - (n0 :: nr).length := by omega
        cases hcm : k.length - (n0 :: nr).length with
        | zero => omega
        | succ m2 => simp [List.take_succ_cons]
      have : isIdentChar '}' = true := by
        have := List.all_eq_true.mp (isIdentStr_all hk) '}' hmem
        exact this
      exact absurd this (by decide)
    · have hnmpre : (n0 :: nr) <+: (n0 :: nr) ++ '}' :: '}' :: rest :=
        List.prefix_append _ _
      have hkpre2 : k <+: (n0 :: nr) :=
        List.prefix_of_prefix_length_le hkpre hnmpre hlen
      obtain ⟨w, hw⟩ := hkpre2
      have hwne : w ≠ [] := by
        intro h0
        rw [h0, List.append_nil] at hw
        exact hne hw
      have hwall : w.all isIdentChar = true := by
        have := hallnm
        rw [← hw, List.all_append, Bool.and_eq_true] at this
        exact this.2
      rw [← hw, List.append_assoc, List.drop_left, parseTail_idspan hwne hwall]

theorem bare_prefix_emit {k val nm rest : Str} (hk : isIdentStr k = true)
    (hnm : isIdentStr nm = true) (hne : k ≠ nm) :
    replaceKey k val (bareL nm ++ rest) = bareL nm ++ replaceKey k val rest := by
  obtain ⟨n0, nr, hnmeq, hn0, hnr⟩ := isIdentStr_shape hnm
  have h0 : bareL nm ++ rest = '{' :: '{' :: (nm ++ '}' :: '}' :: rest) := by
    simp [bareL, List.append_assoc]
  rw [h0, replaceKey_cons_nomatch (matchKeyAt_bare_start hk hnm hne)]
  rw [hnmeq, List.cons_append,
    replaceKey_cons_nomatch (matchKeyAt_second_ne
      ((identChar_ne_brace (identStart_isIdentChar hn0)).1)),
    ← List.cons_append, ← hnmeq]
  have hnb : ∀ c ∈ nm ++ ['}', '}'], c ≠ '{' := by
    intro c hc
    rcases List.mem_append.mp hc with hcm | hcm
    · exact (identChar_ne_brace (List.all_eq_true.mp (isIdentStr_all hnm) c hcm)).1
    · rcases List.mem_cons.mp hcm with rfl | hcm2
      · decide
      · rcases List.mem_cons.mp hcm2 with rfl | hcm3
        · decide
        · exact absurd hcm3 (List.not_mem_nil c)
  have h1 : nm ++ '}' :: '}' :: rest = (nm ++ ['}', '}']) ++ rest := by
    simp [List.append_assoc]
  rw [h1, no_brace_emit (nm ++ ['}', '}']) rest hnb]
  simp [bareL, List.append_assoc]

theorem takeWhile_all_sat {p : Char → Bool} : ∀ l : Str, (l.takeWhile p).all p = true := by
  intro l
  induction l with
  | nil => rfl
  | cons c cs ih =>
    rw [List.takeWhile_cons]
    cases hp : p c
    · rfl
    · simp [hp, ih]

theorem matchKeyAt_decomp {k s r : Str} (hq : noQuote s) (hm : matchKeyAt k s = some r) :
    ∃ ws1 ws2 : Str, ws1.all isJsSpace = true ∧ ws2.all isJsSpace = true ∧
      s = '{' :: '{' :: (ws1 ++ (k ++ (ws2 ++ '}' :: '}' :: r))) := by
  unfold matchKeyAt at hm
  split at hm
  case h_2 => exact absurd hm (by simp)
  rename_i s1
  split at hm
  case isFalse => exact absurd hm (by simp)
  rename_i hpre
  split at hm
  case h_2 => exact absurd hm (by simp)
  rename_i d0 rest0 htail
  have hm2 : rest0 = r := by simpa using hm
  have hq1 : noQuote s1 := fun hc => hq (by simp [hc])
  have hqX : noQuote (s1.dropWhile isJsSpace) :=
    fun hc => hq1 ((List.dropWhile_sublist _).subset hc)
  have hkpre : k <+: s1.dropWhile isJsSpace := List.isPrefixOf_iff_prefix.mp hpre
  obtain ⟨t0, ht0⟩ := hkpre
  have hdrop : (s1.dropWhile isJsSpace).drop k.length = t0 := by
    rw [← ht0, List.drop_left]
  rw [hdrop] at htail
  have hqt0 : noQuote t0 := fun hc => hqX (by rw [← ht0]; simp [hc])
  obtain ⟨hd0, htt⟩ := parseTail_noQuote hqt0 htail
  refine ⟨s1.takeWhile isJsSpace, t0.takeWhile isJsSpace,
    takeWhile_all_sat _, takeWhile_all_sat _, ?_⟩
  rw [← hm2]
  congr 1
  congr 1
  calc s1 = s1.takeWhile isJsSpace ++ s1.dropWhile isJsSpace :=
        (List.takeWhile_append_dropWhile ..).symm
    _ = s1.takeWhile isJsSpace ++ (k ++ t0) := by rw [ht0]
    _ = s1.takeWhile isJsSpace ++ (k ++ (t0.takeWhile isJsSpace ++ t0.dropWhile isJsSpace)) := by
        rw [List.takeWhile_append_dropWhile]
    _ = s1.takeWhile isJsSpace ++ (k ++ (t0.takeWhile isJsSpace ++ ('}' :: '}' :: rest0))) := by
        rw [htt]

theorem infix_iff_drop {l s : Str} : l <:+: s ↔ ∃ n, l <+: s.drop n := by
  constructor
  · rintro ⟨u, w, rfl⟩
    refine ⟨u.length, ?_⟩
    rw [List.append_assoc, List.drop_left]
    exact ⟨w, rfl⟩
  · rintro ⟨n, w, hw⟩
    refine ⟨s.take n, w, ?_⟩
    rw [List.append_assoc, hw, List.take_append_drop]

theorem drop_prefix_brace {ll : Str} : ∀ (u : Str) (X : Str) (j : Nat),
    (∀ c ∈ u, c ≠ '{') → ('{' :: ll) <+: (u ++ X).drop j → u.length ≤ j := by
  intro u
  induction u with
  | nil => intro X j _ _; exact Nat.zero_le j
  | cons a u2 ih =>
    intro X j hne hp
    cases j with
    | zero =>
      rw [List.drop_zero, List.cons_append] at hp
      obtain ⟨w, hw⟩ := hp
      rw [List.cons_append] at hw
      injection hw with h1 _
      exact absurd h1.symm (hne a (List.mem_cons_self _ _))
    | succ j2 =>
      rw [List.cons_append, List.drop_succ_cons] at hp
      have := ih X j2 (fun c hc => hne c (List.mem_cons_of_mem _ hc)) hp
      simpa using Nat.succ_le_succ this

theorem drop_append_ge {u X : Str} {j : Nat} (h : u.length ≤ j) :
    (u ++ X).drop j = X.drop (j - u.length) := by
  have : j = u.length + (j - u.length) := by omega
  rw [this, List.drop_append]
  congr 1
  omega

theorem replaceKey_noQuote {k val : Str} (hqv : noQuote val) :
    ∀ (n : Nat) (s : Str), s.length ≤ n → noQuote s → noQuote (replaceKey k val s) := by
  intro n
  induction n with
  | zero =>
    intro s hlen hqs
    have hs : s = [] := List.length_eq_zero.mp (Nat.le_zero.mp hlen)
    subst hs
    rw [replaceKey_nil]
    exact hqs
  | succ n ih =>
    intro s hlen hqs
    cases s with
    | nil => simpa [replaceKey_nil] using hqs
    | cons c cs =>
      have hqcs : noQuote cs := fun h2 => hqs (List.mem_cons_of_mem _ h2)
      cases hm : matchKeyAt k (c :: cs) with
      | some r =>
        rw [replaceKey_cons_match hm]
        intro hc
        rcases List.mem_append.mp hc with h1 | h1
        · exact hqv h1
        · obtain ⟨s1, heq, hsuf⟩ := matchKeyAt_shape hm
          have hqr : noQuote r := fun h2 => hqs (heq ▸ (by
            simp only [List.mem_cons]
            right
            right
            exact hsuf.sublist.subset h2))
          have hrlen : r.length ≤ n := by
            have := matchKeyAt_rest_le hm
            simp only [List.length_cons] at hlen
            omega
          exact ih r hrlen hqr h1
      | none =>
        rw [replaceKey_cons_nomatch hm]
        intro hc
        rcases List.mem_cons.mp hc with rfl | h1
        · exact hqs (List.mem_cons_self _ _)
        · have hcslen : cs.length ≤ n := by
            simp only [List.length_cons] at hlen
            omega
          exact ih cs hcslen hqcs h1

theorem bare_survives_key {k val nm : Str} (hk : isIdentStr k = true)
    (hnm : isIdentStr nm = true) (hne : k ≠ nm) :
    ∀ (n : Nat) (s : Str), s.length ≤ n → noQuote s →
      bareL nm <:+: s → bareL nm <:+: replaceKey k val s := by
  intro n
  induction n with
  | zero =>
    intro s hlen hqs hinf
    have hs : s = [] := List.length_eq_zero.mp (Nat.le_zero.mp hlen)
    subst hs
    rw [List.infix_nil] at hinf
    exact absurd hinf (by simp [bareL])
  | succ n ih =>
    intro s hlen hqs hinf
    by_cases hpre : bareL nm <+: s
    · obtain ⟨rest, hrest⟩ := hpre
      rw [← hrest, bare_prefix_emit hk hnm hne]
      exact ⟨[], replaceKey k val rest, by simp⟩
    · cases s with
      | nil =>
        rw [List.infix_nil] at hinf
        exact absurd hinf (by simp [bareL])
      | cons c cs =>
        have hinf2 : bareL nm <:+: cs := by
          rcases List.infix_cons_iff.mp hinf with h | h
          · exact absurd h hpre
          · exact h
        have hqcs : noQuote cs := fun h2 => hqs (List.mem_cons_of_mem _ h2)
        have hcslen : cs.length ≤ n := by
          simp only [List.length_cons] at hlen
          omega
        cases hm : matchKeyAt k (c :: cs) with
        | none =>
          rw [replaceKey_cons_nomatch hm]
          exact List.infix_cons (ih cs hcslen hqcs hinf2)
        | some r =>
          rw [replaceKey_cons_match hm]
          obtain ⟨ws1, ws2, hws1, hws2, heq⟩ := matchKeyAt_decomp hqs hm
          have hqr : noQuote r := by
            intro h2
            apply hqs
            rw [heq]
            simp only [List.mem_cons, List.mem_append]
            tauto
          have hrlen : r.length ≤ n := by
            have := matchKeyAt_rest_le hm
            simp only [List.length_cons] at hlen
            omega
          have hinfr : bareL nm <:+: r := by
            obtain ⟨p, hp⟩ := infix_iff_drop.mp hinf
            have hufree : ∀ c2 ∈ ws1 ++ (k ++ (ws2 ++ ['}', '}'])), c2 ≠ '{' := by
              intro c2 hc2
              simp only [List.mem_append, List.mem_cons] at hc2
              rcases hc2 with h2 | h2 | h2 | h2
              · exact (space_ne_brace (List.all_eq_true.mp hws1 c2 h2)).1
              · exact (identChar_ne_brace
                  (List.all_eq_true.mp (isIdentStr_all hk) c2 h2)).1
              · exact (space_ne_brace (List.all_eq_true.mp hws2 c2 h2)).1
              · rcases h2 with rfl | rfl | h3
                · decide
                · decide
                · exact absurd h3 (List.not_mem_nil c2)
            have hzeq : ws1 ++ (k ++ (ws2 ++ '}' :: '}' :: r)) =
                (ws1 ++ (k ++ (ws2 ++ ['}', '}']))) ++ r := by
              simp [List.append_assoc]
            cases p with
            | zero =>
              rw [List.drop_zero] at hp
              exact absurd hp hpre
            | succ p1 =>
              cases p1 with
              | zero =>
                exfalso
                rw [heq] at hp
                rw [List.drop_succ_cons, List.drop_zero] at hp
                obtain ⟨w, hw⟩ := hp
                rw [show bareL nm = '{' :: '{' :: (nm ++ ['}', '}']) from rfl] at hw
                simp only [List.cons_append] at hw
                injection hw with e1 e2
                cases hws1x : ws1 with
                | nil =>
                  rw [hws1x, List.nil_append] at e2
                  obtain ⟨k0, kr, hkeq, hk0, hkr⟩ := isIdentStr_shape hk
                  rw [hkeq, List.cons_append] at e2
                  injection e2 with e3 _
                  exact (identChar_ne_brace (identStart_isIdentChar hk0)).1 e3.symm
                | cons a ws1t =>
                  rw [hws1x, List.cons_append] at e2
                  injection e2 with e3 _
                  have ha : isJsSpace a = true := by
                    rw [hws1x] at hws1
                    simp only [List.all_cons, Bool.and_eq_true] at hws1
                    exact hws1.1
                  exact (space_ne_brace ha).1 e3.symm
              | succ p2 =>
                rw [heq, List.drop_succ_cons, List.drop_succ_cons, hzeq] at hp
                have hle : (ws1 ++ (k ++ (ws2 ++ ['}', '}']))).length ≤ p2 := by
                  apply drop_prefix_brace _ r p2 hufree
                  rw [show bareL nm = '{' :: ('{' :: (nm ++ ['}', '}'])) from rfl] at hp
                  exact hp
                rw [drop_append_ge hle] at hp
                exact infix_iff_drop.mpr ⟨_, hp⟩
          exact (ih r hrlen hqr hinfr).trans (List.suffix_append val _).isInfix

theorem bare_survives_vars {nm : Str} (hnm : isIdentStr nm = true) :
    ∀ (v : List (Str × Str)) (t : Str),
      (∀ kv ∈ v, isIdentStr kv.1 = true) → (∀ kv ∈ v, kv.1 ≠ nm) →
      (∀ kv ∈ v, noQuote kv.2) → noQuote t →
      bareL nm <:+: t → bareL nm <:+: replaceVariables t v := by
  intro v
  induction v with
  | nil => intro t _ _ _ _ h; exact h
  | cons kv rest ih =>
    intro t hkeys hne hqv hqt hinf
    show bareL nm <:+: replaceVariables (replaceKey kv.1 kv.2 t) rest
    have h1 := @bare_survives_key kv.1 kv.2 nm
      (hkeys kv (List.mem_cons_self _ _)) hnm
      (hne kv (List.mem_cons_self _ _)) t.length t (Nat.le_refl _) hqt hinf
    have h2 := @replaceKey_noQuote kv.1 kv.2 (hqv kv (List.mem_cons_self _ _))
      t.length t (Nat.le_refl _) hqt
    exact ih (replaceKey kv.1 kv.2 t)
      (fun x hx => hkeys x (List.mem_cons_of_mem _ hx))
      (fun x hx => hne x (List.mem_cons_of_mem _ hx))
      (fun x hx => hqv x (List.mem_cons_of_mem _ hx)) h2 h1

/-! ## Claim theorems: absent names and prototype names -/

/-- Claim C5 counterexample: an occurrence of the placeholder for b, a
name absent from the map, sits inside the quoted name attribute of a
placeholder of the mapped name x; substituting x removes the whole
annotated placeholder, so the b occurrence does not appear verbatim in
the output. -/
theorem absent_name_destroyed_cex :
    replaceVariables ("\x7b\x7bx name=\"\x7b\x7bb\x7d\x7d\"\x7d\x7d".data)
      [("x".data, "X".data)] = "X".data ∧
    bareL ("b".data) <:+: ("\x7b\x7bx name=\"\x7b\x7bb\x7d\x7d\"\x7d\x7d".data) ∧
    ¬ bareL ("b".data) <:+:
      replaceVariables ("\x7b\x7bx name=\"\x7b\x7bb\x7d\x7d\"\x7d\x7d".data)
        [("x".data, "X".data)] ∧
    ∀ kv ∈ [("x".data, "X".data)], kv.1 ≠ "b".data := by
  refine ⟨rfl, by decide, by decide, by decide⟩

/-- Claim C5 (corrected): substitution is a no-op on identifier names
absent from the map provided no occurrence sits inside the quoted name
attribute of a mapped placeholder; precisely, when the template and all
mapped values are free of double quotes (so the attribute grammar cannot
match), every occurrence of a bare placeholder of an absent name still
occurs verbatim in the output, and when no key matches the template at
all the output is the template byte for byte.  An occurrence inside a
mapped placeholder's quoted attribute can be removed, as the
counterexample shows. -/
theorem absent_names_survive (t : Str) (v : List (Str × Str)) (nm : Str)
    (hnm : isIdentStr nm = true)
    (hkeys : ∀ kv ∈ v, isIdentStr kv.1 = true)
    (hne : ∀ kv ∈ v, kv.1 ≠ nm)
    (hqt : noQuote t) (hqv : ∀ kv ∈ v, noQuote kv.2) :
    (bareL nm <:+: t → bareL nm <:+: replaceVariables t v) ∧
    ((∀ kv ∈ v, hasMatchB kv.1 t = false) → replaceVariables t v = t) :=
  ⟨fun hinf => bare_survives_vars hnm v t hkeys hne hqv hqt hinf,
    fun h => replaceVariables_no_match h⟩

/-- Witness for the corrected C5 theorem: the placeholder of the absent
name keep survives the substitution of x, and a template containing no
mapped placeholder is returned unchanged. -/
theorem absent_names_survive_witness :
    (bareL ("keep".data) <:+:
      replaceVariables (bareL ("keep".data) ++ bareL ("x".data))
        [("x".data, "X".data)]) ∧
    replaceVariables (bareL ("keep".data)) [("x".data, "X".data)] =
      bareL ("keep".data) := by
  have h1 := absent_names_survive (bareL ("keep".data) ++ bareL ("x".data))
    [("x".data, "X".data)] ("keep".data) (by decide) (by decide) (by decide)
    (by decide) (by decide)
  have h2 := absent_names_survive (bareL ("keep".data)) [("x".data, "X".data)]
    ("keep".data) (by decide) (by decide) (by decide) (by decide) (by decide)
  exact ⟨h1.1 (by decide), h2.2 (by decide)⟩

/-- Claim C10 counterexample for its last clause only: a placeholder
named toString inside the quoted name attribute of a mapped placeholder
is not reported missing (the main clause holds) but does not remain
verbatim after substitution. -/
theorem proto_name_nesting_cex :
    findUndefinedVariables
      ("\x7b\x7bx name=\"\x7b\x7btoString\x7d\x7d\"\x7d\x7d".data)
      [("x".data, "y".data)] = [] ∧
    replaceVariables ("\x7b\x7bx name=\"\x7b\x7btoString\x7d\x7d\"\x7d\x7d".data)
      [("x".data, "y".data)] = "y".data ∧
    "toString".data ∈ objectPrototypeProps ∧
    (∀ kv ∈ [("x".data, "y".data)], kv.1 ≠ "toString".data) ∧
    bareL ("toString".data) <:+:
      ("\x7b\x7bx name=\"\x7b\x7btoString\x7d\x7d\"\x7d\x7d".data) ∧
    ¬ bareL ("toString".data) <:+:
      replaceVariables ("\x7b\x7bx name=\"\x7b\x7btoString\x7d\x7d\"\x7d\x7d".data)
        [("x".data, "y".data)] := by
  refine ⟨rfl, rfl, by decide, by decide, by decide, by decide⟩

/-- Claim C10 (corrected): a placeholder whose name is inherited from
Object.prototype is never reported missing by findUndefinedVariables
when it is not an own key (the in operator consults the prototype
chain), hence it is never interactively collected; it also remains
verbatim after substitution provided the occurrence does not sit inside
the quoted name attribute of a mapped placeholder, in particular
whenever the template and the mapped values contain no double quote. -/
theorem proto_names_not_missing (t : Str) (v : List (Str × Str)) (nm : Str)
    (answers : Str × Option Str → Str)
    (hproto : nm ∈ objectPrototypeProps)
    (hown : ∀ kv ∈ v, kv.1 ≠ nm) :
    nm ∉ (findUndefinedVariables t v).map Prod.fst ∧
    (∀ kv ∈ collectMissingVars t v answers, kv.1 ≠ nm) ∧
    (isIdentStr nm = true → (∀ kv ∈ v, isIdentStr kv.1 = true) → noQuote t →
      (∀ kv ∈ v, noQuote kv.2) → bareL nm <:+: t →
      bareL nm <:+: replaceVariables t v) := by
  have hjs : jsIn nm v = true := by
    unfold jsIn
    have h2 : objectPrototypeProps.contains nm = true := by
      simpa using hproto
    rw [h2]
    simp
  have h1 : nm ∉ (findUndefinedVariables t v).map Prod.fst := by
    intro hmem
    obtain ⟨x, hx, hx1⟩ := List.mem_map.mp hmem
    have h2 := (List.mem_filter.mp hx).2
    rw [hx1, hjs] at h2
    simp at h2
  refine ⟨h1, ?_, ?_⟩
  · intro kv hkv
    unfold collectMissingVars at hkv
    rcases List.mem_append.mp hkv with h | h
    · exact hown kv h
    · obtain ⟨x, hx, hx2⟩ := List.mem_map.mp h
      intro heq
      apply h1
      refine List.mem_map.mpr ⟨x, hx, ?_⟩
      have hfst : kv.1 = x.1 := by rw [← hx2]
      rw [← hfst, heq]
  · intro h2 h3 h4 h5 h6
    exact bare_survives_vars h2 v t h3 hown h5 h4 h6

/-- Witness for the corrected C10 theorem: a template holding a bare
constructor placeholder next to a mapped placeholder. -/
theorem proto_names_not_missing_witness :
    "constructor".data ∉
      (findUndefinedVariables (bareL ("constructor".data) ++ bareL ("x".data))
        [("x".data, "y".data)]).map Prod.fst ∧
    (∀ kv ∈ collectMissingVars (bareL ("constructor".data) ++ bareL ("x".data))
        [("x".data, "y".data)] (fun _ => "z".data), kv.1 ≠ "constructor".data) ∧
    bareL ("constructor".data) <:+:
      replaceVariables (bareL ("constructor".data) ++ bareL ("x".data))
        [("x".data, "y".data)] := by
  have h := proto_names_not_missing
    (bareL ("constructor".data) ++ bareL ("x".data)) [("x".data, "y".data)]
    ("constructor".data) (fun _ => "z".data) (by decide) (by decide)
  exact ⟨h.1, h.2.1, h.2.2 (by decide) (by decide) (by decide) (by decide) (by decide)⟩

/-! ## Option and preset resolution lemmas -/

theorem optionsSchemaParse_ok {o o' : ResolvedOptions}
    (h : optionsSchemaParse o = .ok o') : o' = o := by
  unfold optionsSchemaParse at h
  split at h
  · exact absurd h (by simp)
  · split at h
    · exact absurd h (by simp)
    · split at h
      · exact absurd h (by simp)
      · exact (Except.ok.inj h).symm

theorem browserPath_not_in_enum {c : Str} (h : isBrowserPath c = true) :
    crawlerEnumOk c = false := by
  cases hc : crawlerEnumOk c
  · rfl
  · exfalso
    unfold crawlerEnumOk at hc
    simp only [Bool.or_eq_true, beq_iff_eq] at hc
    rcases hc with rfl | rfl
    · exact absurd h (by decide)
    · exact absurd h (by decide)

/-! ## Claim theorems: context assembly and retrieval -/

/-- Claim C2 (confirmed): buildPrompt returns the prompt unchanged when
both source lists are empty; with the single retrieved source
(a.txt, Hello) it returns exactly the specified string; with two or more
sources it uses the plural label, renders every entry as a Source line
followed by the text, joins entries with the blank-line dashes blank-line
separator, and places all file entries before all url entries. -/
theorem buildPrompt_context_format (p : Str) (f1 f2 u1 : Str × Str) :
    buildPromptCombine p [] [] = p ∧
    buildPromptCombine p [("a.txt".data, "Hello".data)] [] =
      p ++ "\n\nContext from source:\nSource: a.txt\nHello".data ∧
    buildPromptCombine p [f1] [u1] =
      p ++ "\n\nContext from sources:\n".data ++
        ("Source: ".data ++ f1.1 ++ '\n' :: f1.2) ++ "\n\n---\n\n".data ++
        ("Source: ".data ++ u1.1 ++ '\n' :: u1.2) ∧
    buildPromptCombine p [f1, f2] [u1] =
      p ++ "\n\nContext from sources:\n".data ++
        ("Source: ".data ++ f1.1 ++ '\n' :: f1.2) ++ "\n\n---\n\n".data ++
        ("Source: ".data ++ f2.1 ++ '\n' :: f2.2) ++ "\n\n---\n\n".data ++
        ("Source: ".data ++ u1.1 ++ '\n' :: u1.2) := by
  refine ⟨rfl, ?_, ?_, ?_⟩ <;>
    simp [buildPromptCombine, renderSource, ctxSep, List.intercalate, List.intersperse,
      List.append_assoc]

/-- Claim C3 counterexample: the wait for network idle is bounded by a
30000 ms timeout, not one on the order of 10 seconds, and when the
navigation times out the retrieval fails with a wrapped error instead of
proceeding with partial content. -/
theorem chrome_timeout_fatal_cex :
    chromeGotoTimeoutMs = 30000 ∧
    fetchUrlContent
      { httpGet := fun _ => none, chromeNav := fun _ => ChromeNav.timeout,
        sanitize := fun s => s, readFileF := fun _ => none }
      chromeToken ("https://example.com".data) =
      .error (.fetchFailed ("https://example.com".data) .navTimeout) :=
  ⟨rfl, rfl⟩

/-- Claim C3 (corrected): in the full-render strategy the wait for
network idle is bounded by a 30000 ms timeout, and a timeout of that
wait is fatal for the source exactly like any other navigation failure:
the error propagates, wrapped with the URL, and aborts the whole
context-assembly run; only a successful navigation yields the sanitized
trimmed content. -/
theorem chrome_nav_outcome_propagation (env : FetchEnv) (url crawler : Str)
    (h1 : validateUrl url = .ok ())
    (h2 : usesChromeCrawler crawler = true) :
    chromeGotoTimeoutMs = 30000 ∧
    (env.chromeNav url = ChromeNav.timeout →
      fetchUrlContent env crawler url = .error (.fetchFailed url .navTimeout)) ∧
    (env.chromeNav url = ChromeNav.failure →
      fetchUrlContent env crawler url = .error (.fetchFailed url .navFailure)) ∧
    (∀ html, env.chromeNav url = ChromeNav.success html →
      fetchUrlContent env crawler url = .ok (jsTrim (env.sanitize html))) ∧
    (∀ prompt, env.chromeNav url = ChromeNav.timeout →
      buildPromptM env prompt [] [url] crawler =
        .error (.fetchFailed url .navTimeout)) := by
  refine ⟨rfl, ?_, ?_, ?_, ?_⟩
  · intro hnav
    simp [fetchUrlContent, fetchUrlContentWithChrome, h1, h2, hnav, Except.mapError]
  · intro hnav
    simp [fetchUrlContent, fetchUrlContentWithChrome, h1, h2, hnav, Except.mapError]
  · intro html hnav
    simp [fetchUrlContent, fetchUrlContentWithChrome, h1, h2, hnav, Except.mapError]
  · intro prompt hnav
    simp [buildPromptM, retrieveEach, fetchUrlContent, fetchUrlContentWithChrome,
      h1, h2, hnav, Except.mapError]

/-- Witness for the corrected C3 theorem at a concrete environment whose
navigation times out. -/
theorem chrome_nav_outcome_propagation_witness :
    fetchUrlContent
      { httpGet := fun _ => none, chromeNav := fun _ => ChromeNav.timeout,
        sanitize := fun s => s, readFileF := fun _ => none }
      chromeToken ("https://example.com".data) =
      .error (.fetchFailed ("https://example.com".data) .navTimeout) ∧
    buildPromptM
      { httpGet := fun _ => none, chromeNav := fun _ => ChromeNav.timeout,
        sanitize := fun s => s, readFileF := fun _ => none }
      ("hi".data) [] [("https://example.com".data)] chromeToken =
      .error (.fetchFailed ("https://example.com".data) .navTimeout) := by
  have h := chrome_nav_outcome_propagation
    { httpGet := fun _ => none, chromeNav := fun _ => ChromeNav.timeout,
      sanitize := fun s => s, readFileF := fun _ => none }
    ("https://example.com".data) chromeToken rfl rfl
  exact ⟨h.2.1 rfl, h.2.2.2.2 ("hi".data) rfl⟩

/-- Claim C9 counterexample: a path-shaped crawler token does select the
full-render strategy with that token as executable path at the retrieval
layer, but option resolution rejects it: the crawler enum of
optionsSchema only admits fetch and chrome, so the token never reaches
retrieval through the CLI. -/
theorem crawler_path_rejected_cex :
    isBrowserPath ("./chromium".data) = true ∧
    usesChromeCrawler ("./chromium".data) = true ∧
    chromeExecutablePath ("./chromium".data) = some ("./chromium".data) ∧
    flagsToOptions { model := defaultModel, crawler := defaultCrawler }
      { model := none, format := none, schema := none,
        crawler := some ("./chromium".data), files := [], urls := [], vars := [] } =
      .error .invalidCrawler :=
  ⟨rfl, rfl, rfl, rfl⟩

/-- Claim C9 (corrected): at the retrieval layer the explicit chrome
token selects the full-render strategy with no executable path override,
a path-shaped token selects the full-render strategy with that token as
the browser executable location, and any other token selects the
lightweight fetch strategy; however a path-shaped crawler token supplied
by the caller never reaches retrieval through option resolution, whose
crawler enum admits only fetch and chrome. -/
theorem crawler_selection (env : FetchEnv) (crawler url : Str) :
    (usesChromeCrawler chromeToken = true ∧ chromeExecutablePath chromeToken = none) ∧
    (isBrowserPath crawler = true →
      usesChromeCrawler crawler = true ∧ chromeExecutablePath crawler = some crawler) ∧
    (crawler ≠ chromeToken → isBrowserPath crawler = false →
      usesChromeCrawler crawler = false ∧
      fetchUrlContent env crawler url =
        (fetchUrlContentWithFetch env url).mapError (RunErr.fetchFailed url)) ∧
    (∀ d inv o, inv.crawler = some crawler → isBrowserPath crawler = true →
      flagsToOptions d inv ≠ .ok o) := by
  refine ⟨⟨rfl, rfl⟩, ?_, ?_, ?_⟩
  · intro h
    simp [usesChromeCrawler, chromeExecutablePath, h]
  · intro h1 h2
    have hu : usesChromeCrawler crawler = false := by
      simp [usesChromeCrawler, h2, beq_iff_eq, h1]
    exact ⟨hu, by simp [fetchUrlContent, hu]⟩
  · intro d inv o hc hp hcontra
    unfold flagsToOptions at hcontra
    unfold optionsSchemaParse at hcontra
    rw [hc] at hcontra
    simp only [Option.getD_some, browserPath_not_in_enum hp] at hcontra
    split at hcontra
    · exact absurd hcontra (by simp)
    · exact absurd hcontra (by simp)

/-- Witness for the corrected C9 theorem at a concrete path-shaped
token. -/
theorem crawler_selection_witness :
    usesChromeCrawler ("./chromium".data) = true ∧
    chromeExecutablePath ("./chromium".data) = some ("./chromium".data) ∧
    (∀ o, flagsToOptions { model := defaultModel, crawler := defaultCrawler }
      { model := none, format := none, schema := none,
        crawler := some ("./chromium".data), files := [], urls := [], vars := [] } ≠
      .ok o) := by
  have h := crawler_selection
    { httpGet := fun _ => none, chromeNav := fun _ => ChromeNav.failure,
      sanitize := fun s => s, readFileF := fun _ => none }
    ("./chromium".data) ("https://example.com".data)
  exact ⟨(h.2.1 rfl).1, (h.2.1 rfl).2, fun o => h.2.2.2 _ _ o rfl rfl⟩

/-- Claim C4 (confirmed): preset merging resolves each scalar field to
the flag value when the flag was present in the raw invocation, tracked
by presence and not by comparison to a default, otherwise to the preset
value when present, otherwise to the configured default (string for
format, nothing for schema, and the environment-or-built-in defaults for
model and crawler); the files and urls lists are the preset lists
concatenated with the flag lists, preset entries first; vars come solely
from flags. -/
theorem merge_precedence (d : EnvDefaults) (inv : Invocation) (preset : PresetConfig)
    (opts merged : ResolvedOptions)
    (h1 : flagsToOptions d inv = .ok opts)
    (h2 : mergeOptionsWithPreset inv opts preset = .ok merged) :
    merged.model = (match inv.model with
      | some v => v
      | none => preset.model.getD d.model) ∧
    merged.format = (match inv.format with
      | some v => v
      | none => preset.format.getD ("string".data)) ∧
    merged.schema = (match inv.schema with
      | some v => some v
      | none => preset.schema) ∧
    merged.crawler = (match inv.crawler with
      | some v => v
      | none => preset.crawler.getD d.crawler) ∧
    merged.files = preset.files ++ inv.files ∧
    merged.urls = preset.urls ++ inv.urls ∧
    merged.vars = inv.vars := by
  obtain rfl := optionsSchemaParse_ok h1
  obtain rfl := optionsSchemaParse_ok h2
  refine ⟨?_, ?_, ?_, ?_, rfl, rfl, rfl⟩
  · cases inv.model <;> simp
  · cases inv.format <;> simp
  · cases hs : inv.schema
    · cases preset.schema <;> simp [hs, Option.orElse]
    · simp [hs]
  · cases inv.crawler <;> simp

/-- Witness for C4: a preset merge where the format flag is explicitly
passed with a value equal to the built-in default and still wins over
the preset, and where preset files a, b concatenate with flag file c. -/
theorem merge_precedence_witness :
    flagsToOptions { model := "envmodel".data, crawler := "fetch".data }
      { model := none, format := some ("string".data), schema := none,
        crawler := none, files := ["c".data], urls := [],
        vars := [("k".data, "v".data)] } =
      .ok { model := "envmodel".data, format := "string".data, schema := none,
            crawler := "fetch".data, files := ["c".data], urls := [],
            vars := [("k".data, "v".data)] } ∧
    mergeOptionsWithPreset
      { model := none, format := some ("string".data), schema := none,
        crawler := none, files := ["c".data], urls := [],
        vars := [("k".data, "v".data)] }
      { model := "envmodel".data, format := "string".data, schema := none,
        crawler := "fetch".data, files := ["c".data], urls := [],
        vars := [("k".data, "v".data)] }
      { prompt := [], model := some ("pm".data), format := some ("array".data),
        schema := some ("zs".data), crawler := none,
        files := ["a".data, "b".data], urls := ["u".data] } =
      .ok { model := "pm".data, format := "string".data, schema := some ("zs".data),
            crawler := "fetch".data, files := ["a".data, "b".data, "c".data],
            urls := ["u".data], vars := [("k".data, "v".data)] } ∧
    ("a".data :: "b".data :: ["c".data] : List Str) =
      ["a".data, "b".data] ++ ["c".data] := by
  refine ⟨rfl, ?_, rfl⟩
  have h := merge_precedence
    { model := "envmodel".data, crawler := "fetch".data }
    { model := none, format := some ("string".data), schema := none,
      crawler := none, files := ["c".data], urls := [],
      vars := [("k".data, "v".data)] }
    { prompt := [], model := some ("pm".data), format := some ("array".data),
      schema := some ("zs".data), crawler := none,
      files := ["a".data, "b".data], urls := ["u".data] }
    { model := "envmodel".data, format := "string".data, schema := none,
      crawler := "fetch".data, files := ["c".data], urls := [],
      vars := [("k".data, "v".data)] }
    { model := "pm".data, format := "string".data, schema := some ("zs".data),
      crawler := "fetch".data, files := ["a".data, "b".data, "c".data],
      urls := ["u".data], vars := [("k".data, "v".data)] }
    rfl rfl
  exact rfl

/-! ## Preset loading lemmas -/

theorem jlookup_append_unknown {fields : List (Str × Json)} {k0 : Str} {v0 : Json}
    {k : Str} (hk : recognizedPresetKey k = true) (hk0 : recognizedPresetKey k0 = false) :
    jlookup (fields ++ [(k0, v0)]) k = jlookup fields k := by
  have hne : (k0 == k) = false := by
    cases hbe : k0 == k
    · rfl
    · rw [eq_of_beq hbe] at hk0
      exact absurd hk (by simp [hk0])
  induction fields with
  | nil => simp [jlookup, List.find?, hne]
  | cons f fs ih =>
    unfold jlookup at ih ⊢
    cases hf : (f.1 == k)
    · simpa [List.find?_cons, hf] using ih
    · simp [List.find?_cons, hf]

theorem parseOptStr_append_unknown {fields : List (Str × Json)} {k0 : Str} {v0 : Json}
    {k : Str} (hk : recognizedPresetKey k = true) (hk0 : recognizedPresetKey k0 = false) :
    parseOptStr (fields ++ [(k0, v0)]) k = parseOptStr fields k := by
  unfold parseOptStr
  rw [jlookup_append_unknown hk hk0]

theorem parseOptEnum_append_unknown {inEnum : Str → Bool} {fields : List (Str × Json)}
    {k0 : Str} {v0 : Json} {k : Str}
    (hk : recognizedPresetKey k = true) (hk0 : recognizedPresetKey k0 = false) :
    parseOptEnum inEnum (fields ++ [(k0, v0)]) k = parseOptEnum inEnum fields k := by
  unfold parseOptEnum
  rw [jlookup_append_unknown hk hk0]

theorem parseStrListField_append_unknown {fields : List (Str × Json)} {k0 : Str}
    {v0 : Json} {k : Str}
    (hk : recognizedPresetKey k = true) (hk0 : recognizedPresetKey k0 = false) :
    parseStrListField (fields ++ [(k0, v0)]) k = parseStrListField fields k := by
  unfold parseStrListField
  rw [jlookup_append_unknown hk hk0]

/-- Claim C7 counterexample: the prompt field is required, not optional:
a preset without it is rejected as malformed even though every other
recognized field may be absent. -/
theorem preset_prompt_required_cex :
    presetSchemaParse (.obj []) = .error () ∧
    loadPreset ("p.json".data) (.content (.ok (.obj []))) =
      .error (.malformed ("p.json".data)) ∧
    loadPreset ("p.json".data)
      (.content (.ok (.obj [("model".data, .str ("m".data))]))) =
      .error (.malformed ("p.json".data)) :=
  ⟨rfl, rfl, rfl⟩

/-- Claim C7 (corrected): loadPreset parses the file as a JSON document
whose prompt field is a required string (its absence is a malformed
condition); the other recognized fields are optional, missing files and
urls default to empty lists, unknown fields are ignored, the not-found
condition occurs exactly for a missing file, and any other structural or
JSON-syntax violation, an unrecognized format enum value included, is
the malformed condition. -/
theorem loadPreset_contract :
    (∀ path read, loadPreset path read = .error (.notFound path) ↔
      read = ReadOutcome.enoent) ∧
    (∀ pr, presetSchemaParse (.obj [("prompt".data, .str pr)]) =
      .ok { prompt := pr, model := none, format := none, schema := none,
            crawler := none, files := [], urls := [] }) ∧
    (∀ fields k0 v0, recognizedPresetKey k0 = false →
      presetSchemaParse (.obj (fields ++ [(k0, v0)])) =
        presetSchemaParse (.obj fields)) ∧
    (∀ pr s, formatEnumOk s = false →
      presetSchemaParse (.obj [("prompt".data, .str pr), ("format".data, .str s)]) =
        .error ()) ∧
    (∀ fields, jlookup fields ("prompt".data) = none →
      presetSchemaParse (.obj fields) = .error ()) := by
  refine ⟨?_, ?_, ?_, ?_, ?_⟩
  · intro path read
    cases read with
    | enoent => simp [loadPreset]
    | ioError => simp [loadPreset]
    | content parsed =>
      cases parsed with
      | error e => simp [loadPreset]
      | ok j => cases hp : presetSchemaParse j <;> simp [loadPreset, hp]
  · intro pr
    rfl
  · intro fields k0 v0 h
    simp only [presetSchemaParse]
    rw [@jlookup_append_unknown fields k0 v0 ("prompt".data) (by decide) h,
      @parseOptStr_append_unknown fields k0 v0 ("model".data) (by decide) h,
      @parseOptEnum_append_unknown formatEnumOk fields k0 v0 ("format".data) (by decide) h,
      @parseOptStr_append_unknown fields k0 v0 ("schema".data) (by decide) h,
      @parseOptEnum_append_unknown crawlerEnumOk fields k0 v0 ("crawler".data) (by decide) h,
      @parseStrListField_append_unknown fields k0 v0 ("files".data) (by decide) h,
      @parseStrListField_append_unknown fields k0 v0 ("urls".data) (by decide) h]
  · intro pr s h
    simp [presetSchemaParse, jlookup, List.find?, parseOptStr, parseOptEnum,
      parseStrListField, h, Except.bind]
  · intro fields h
    simp [presetSchemaParse, h, Except.bind]

/-- Witness for the corrected C7 theorem at concrete documents. -/
theorem loadPreset_contract_witness :
    loadPreset ("p.json".data) ReadOutcome.enoent =
      .error (.notFound ("p.json".data)) ∧
    presetSchemaParse (.obj [("prompt".data, .str ("hi".data))]) =
      .ok { prompt := "hi".data, model := none, format := none, schema := none,
            crawler := none, files := [], urls := [] } ∧
    presetSchemaParse
      (.obj ([("prompt".data, .str ("hi".data))] ++ [("extra".data, .null)])) =
      presetSchemaParse (.obj [("prompt".data, .str ("hi".data))]) ∧
    presetSchemaParse
      (.obj [("prompt".data, .str ("hi".data)), ("format".data, .str ("html".data))]) =
      .error () := by
  have h := loadPreset_contract
  exact ⟨(h.1 ("p.json".data) ReadOutcome.enoent).mpr rfl, h.2.1 ("hi".data),
    h.2.2.1 [("prompt".data, .str ("hi".data))] ("extra".data) .null (by decide),
    h.2.2.2.1 ("hi".data) ("html".data) (by decide)⟩

end Heyi
